import Mathlib

set_option maxRecDepth 4000

/-!
Verification of the concurrency and persistence core of the `conway`
access-controller firmware, as a shallow embedding in Lean 4.

Each Rust function relevant to the checked claims is translated into a
Lean function over explicit state values:

* `src/events.rs` / `src/sync.rs` — the mutex-protected event buffer
  (`EventBufferInner`, `push`, `peek`, `commit`).  The mutex serialises all
  operations, so each method is modelled as a pure state transformer.
* `src/shared.rs` — the seqlock-style fob cache (`check_fob`,
  `update_fobs`), the lock-free cross-core event ring (`push_event`,
  `peek_events`, `commit_events`) and the flash-write handshake state
  machine.  Values read from memory that another core may be writing
  concurrently are supplied by explicit observation oracles.
* `src/storage.rs` — CRC32, the record serialisation used by
  `save_to_flash`, slot validation (`read_slot`, `read_slot_sequence`),
  `load_from_flash` and the control flow of `save_to_flash`.
* `src/wiegand.rs` — the 26/34-bit frame decoders `decode_26`/`decode_34`.

Machine integers (`u16`/`u32`/`u64`/`usize`) are modelled as `Nat` with
explicit `% 2 ^ w`, saturating arithmetic spelled out, at the places the
source can overflow.
-/

/-! ## Event buffer (`src/events.rs`, duplicated verbatim in `src/sync.rs`) -/

/-- `MAX_EVENTS` from `events.rs`. -/
def MAX_EVENTS : Nat := 20

/-- `AccessEvent` from `events.rs`: `{ fob: u32, allowed: bool }`. -/
structure AccessEvent where
  fob : Nat
  allowed : Bool
deriving DecidableEq

/-- `EventBufferInner` from `events.rs`.  The fixed array
`events: [AccessEvent; MAX_EVENTS]` is modelled as a total function from
slot index to stored event; only indices `< MAX_EVENTS` are ever used. -/
structure EventBufferInner where
  events : Nat → AccessEvent
  head : Nat
  tail : Nat

/-- `EventBufferInner::new()`. -/
def EventBufferInner.new : EventBufferInner :=
  { events := fun _ => { fob := 0, allowed := false }, head := 0, tail := 0 }

/-- `EventBufferInner::len()`. -/
def EventBufferInner.len (b : EventBufferInner) : Nat :=
  if b.tail ≤ b.head then b.head - b.tail else MAX_EVENTS - b.tail + b.head

/-- `EventBufferInner::is_full()`. -/
def EventBufferInner.isFull (b : EventBufferInner) : Bool :=
  (b.head + 1) % MAX_EVENTS == b.tail

/-- `EventBuffer::push` (`events.rs` lines 61–73): if full, advance `tail`
to discard the oldest event, then write at `head` and advance `head`. -/
def EventBufferInner.push (b : EventBufferInner) (e : AccessEvent) : EventBufferInner :=
  let b' := if b.isFull then { b with tail := (b.tail + 1) % MAX_EVENTS } else b
  { b' with
    events := fun j => if j = b'.head then e else b'.events j,
    head := (b'.head + 1) % MAX_EVENTS }

/-- The copy loop of `EventBuffer::peek`: `while idx != head && count <
MAX_EVENTS { out[count] = events[idx]; count += 1; idx = (idx+1)%MAX_EVENTS }`.
The fuel argument is `MAX_EVENTS - count`, so the `count < MAX_EVENTS`
guard is the `0` case. -/
def EventBufferInner.peekGo (b : EventBufferInner) : Nat → Nat → List AccessEvent
  | _, 0 => []
  | idx, fuel + 1 =>
    if idx = b.head then []
    else b.events idx :: b.peekGo ((idx + 1) % MAX_EVENTS) fuel

/-- `EventBuffer::peek` (`events.rs` lines 78–92).  Returns the final
buffer state (the method only reads through the mutex guard), the copied
events in copy order, and the `tail` snapshot. -/
def EventBufferInner.peek (b : EventBufferInner) :
    EventBufferInner × List AccessEvent × Nat :=
  (b, b.peekGo b.tail MAX_EVENTS, b.tail)

/-- `EventBuffer::commit` (`events.rs` lines 97–137). -/
def EventBufferInner.commit (b : EventBufferInner) (count expected_tail : Nat) :
    EventBufferInner :=
  let new_tail := (expected_tail + count) % MAX_EVENTS
  if b.tail = expected_tail then { b with tail := new_tail }
  else
    let distance_forward :=
      if b.tail ≤ new_tail then new_tail - b.tail else MAX_EVENTS - b.tail + new_tail
    if distance_forward < MAX_EVENTS / 2 then { b with tail := new_tail } else b

/-- The circular forward distance computed inside `commit`. -/
def commitDistance (cur new_tail : Nat) : Nat :=
  if cur ≤ new_tail then new_tail - cur else MAX_EVENTS - cur + new_tail


/-! ## Flash write coordination (`src/shared.rs` lines 15–37, 306–343)

The shared `flash_state: AtomicU8` only ever holds the four enum
discriminants, so it is modelled directly as the enum.  Each operation is
the effect of the corresponding compare-exchange / store on that state. -/

/-- `FlashState` from `shared.rs`. -/
inductive FlashState where
  | Idle
  | Requested
  | Safe
  | Done
deriving DecidableEq

/-- `Shared::request_flash_write`: CAS `Idle → Requested`; returns the new
state and whether the CAS succeeded. -/
def requestFlashWrite (s : FlashState) : FlashState × Bool :=
  if s = FlashState.Idle then (FlashState.Requested, true) else (s, false)

/-- `Shared::signal_flash_safe`: CAS `Requested → Safe`, result ignored. -/
def signalFlashSafe (s : FlashState) : FlashState :=
  if s = FlashState.Requested then FlashState.Safe else s

/-- `Shared::signal_flash_done`: unconditional store of `Done`. -/
def signalFlashDone (_s : FlashState) : FlashState :=
  FlashState.Done

/-- `Shared::acknowledge_flash_done`: CAS `Done → Idle`, result ignored. -/
def acknowledgeFlashDone (s : FlashState) : FlashState :=
  if s = FlashState.Done then FlashState.Idle else s

/-- C6: the handshake operations respect the 4-state protocol in every
state: `request_flash_write` transitions `Idle → Requested` and in any
other state fails leaving the state unchanged; `signal_flash_safe` only
transitions `Requested → Safe` and is otherwise a no-op;
`signal_flash_done` is an unconditional store of `Done`;
`acknowledge_flash_done` only transitions `Done → Idle` and is otherwise
a no-op. -/
theorem flash_handshake_protocol (s : FlashState) :
    (s = FlashState.Idle → requestFlashWrite s = (FlashState.Requested, true)) ∧
    (s ≠ FlashState.Idle → requestFlashWrite s = (s, false)) ∧
    (s = FlashState.Requested → signalFlashSafe s = FlashState.Safe) ∧
    (s ≠ FlashState.Requested → signalFlashSafe s = s) ∧
    signalFlashDone s = FlashState.Done ∧
    (s = FlashState.Done → acknowledgeFlashDone s = FlashState.Idle) ∧
    (s ≠ FlashState.Done → acknowledgeFlashDone s = s) := by
  cases s <;> decide

/-- C6 witness: the protocol theorem evaluated in the `Requested` state:
a second `request_flash_write` fails and leaves the state unchanged,
while `signal_flash_safe` moves it to `Safe`. -/
theorem flash_handshake_protocol_witness :
    requestFlashWrite FlashState.Requested = (FlashState.Requested, false) ∧
    signalFlashSafe FlashState.Requested = FlashState.Safe := by
  refine ⟨(flash_handshake_protocol FlashState.Requested).2.1 (by decide),
    (flash_handshake_protocol FlashState.Requested).2.2.1 rfl⟩

/-! ## Fob authorization cache (`src/shared.rs` lines 83–141, 259–282) -/

/-- `MAX_FOBS` from `shared.rs`. -/
def MAX_FOBS : Nat := 512

/-- The seqlock-protected fob cache: `fobs: [AtomicU32; MAX_FOBS]`,
`fob_count: AtomicU16`, `update_seq: AtomicU32`. -/
structure FobCache where
  fobs : Nat → Nat
  fob_count : Nat
  update_seq : Nat

/-- One `update_seq.fetch_add(1, ...)`: a wrapping u32 increment. -/
def FobCache.seqIncr (c : FobCache) : FobCache :=
  { c with update_seq := (c.update_seq + 1) % 2 ^ 32 }

/-- The data-writing phase of `Shared::update_fobs`: store the first
`min(len, MAX_FOBS)` new values and then the count. -/
def FobCache.writeFobs (c : FobCache) (new : List Nat) : FobCache :=
  let count := min new.length MAX_FOBS
  { c with
    fobs := fun i => if i < count then new.getD i 0 else c.fobs i,
    fob_count := count }

/-- `Shared::update_fobs` (`shared.rs` lines 259–282): increment the
sequence (odd = unstable), write values and count, release fence,
increment the sequence again (even = stable). -/
def FobCache.updateFobs (c : FobCache) (new : List Nat) : FobCache :=
  ((c.seqIncr).writeFobs new).seqIncr

/-- C4: `update_fobs` first advances the generation token by exactly one
(odd if it was even), then writes the new values and count without
touching the token, then advances the token by exactly one again; the
whole replace advances the token by exactly 2 (mod `2^32`), and starting
from an even (stable) token the two intermediate states are odd
(write in progress) and the final state is even again. -/
theorem update_fobs_seqlock (c : FobCache) (new : List Nat) :
    (c.seqIncr.update_seq = (c.update_seq + 1) % 2 ^ 32) ∧
    ((c.seqIncr.writeFobs new).update_seq = c.seqIncr.update_seq) ∧
    ((c.seqIncr.writeFobs new).fob_count = min new.length MAX_FOBS) ∧
    (∀ i < min new.length MAX_FOBS, (c.seqIncr.writeFobs new).fobs i = new.getD i 0) ∧
    (c.updateFobs new = (c.seqIncr.writeFobs new).seqIncr) ∧
    (c.updateFobs new).update_seq = (c.update_seq + 2) % 2 ^ 32 ∧
    (c.update_seq % 2 = 0 →
      c.seqIncr.update_seq % 2 = 1 ∧
      (c.seqIncr.writeFobs new).update_seq % 2 = 1 ∧
      (c.updateFobs new).update_seq % 2 = 0) := by
  have hdvd : (2 : Nat) ∣ 2 ^ 32 := dvd_pow_self 2 (by decide)
  have hmm : ∀ x : Nat, x % 2 ^ 32 % 2 = x % 2 := fun x => Nat.mod_mod_of_dvd x hdvd
  refine ⟨rfl, rfl, rfl, fun i hi => ?_, rfl, ?_, fun heven => ⟨?_, ?_, ?_⟩⟩
  · simp only [FobCache.writeFobs]
    rw [if_pos hi]
  · show ((c.update_seq + 1) % 2 ^ 32 + 1) % 2 ^ 32 = (c.update_seq + 2) % 2 ^ 32
    rw [Nat.mod_add_mod]
  · show (c.update_seq + 1) % 2 ^ 32 % 2 = 1
    rw [hmm]
    omega
  · show (c.update_seq + 1) % 2 ^ 32 % 2 = 1
    rw [hmm]
    omega
  · show ((c.update_seq + 1) % 2 ^ 32 + 1) % 2 ^ 32 % 2 = 0
    rw [Nat.mod_add_mod, hmm]
    omega

/-- An all-zero fob cache, used to instantiate theorems. -/
def fobCache0 : FobCache := { fobs := fun _ => 0, fob_count := 0, update_seq := 0 }

/-- C4 witness: the seqlock theorem applied to the zero cache and the
list `[7]`: the token goes `0 → 1 → 1 → 2`, value `7` is written at
index `0`, and the final token is even. -/
theorem update_fobs_seqlock_witness :
    fobCache0.seqIncr.update_seq = 1 ∧
    (fobCache0.seqIncr.writeFobs [7]).fobs 0 = 7 ∧
    (fobCache0.updateFobs [7]).update_seq = 2 ∧
    (fobCache0.updateFobs [7]).update_seq % 2 = 0 := by
  obtain ⟨h1, _, _, h4, _, h6, h7⟩ := update_fobs_seqlock fobCache0 [7]
  refine ⟨by simpa using h1, by simpa using h4 0 (by decide), by simpa using h6,
    (h7 (by decide)).2.2⟩

/-! ## `Shared::check_fob` (`src/shared.rs` lines 83–141)

The values `check_fob` loads from the shared atomics while Core 1 may be
writing concurrently are supplied by an oracle indexed by loop
iteration: `seq1` (the first load of `update_seq`), `found` (the result
of the scan over `fobs[0..count]`), and `seq2` (the re-load of
`update_seq` after the scan). -/

/-- One loop iteration's observations of the shared memory. -/
structure SeqObs where
  seq1 : Nat
  found : Bool
  seq2 : Nat

/-- `MAX_RETRIES` from `check_fob`. -/
def MAX_RETRIES : Nat := 100

/-- The retry loop of `Shared::check_fob`.  `fuel` is the number of
failing iterations still allowed (`MAX_RETRIES - retries`); the code
returns `false` as soon as the incremented retry counter reaches
`MAX_RETRIES`, which is the `fuel = 0` case.  An iteration with an odd
`seq1` retries without scanning; an even `seq1` scans and returns the
scan result if `seq2` matches, otherwise retries. -/
def checkFobGo (obs : Nat → SeqObs) : Nat → Nat → Bool
  | _, 0 => false
  | i, fuel + 1 =>
    let o := obs i
    if o.seq1 % 2 = 1 then checkFobGo obs (i + 1) fuel
    else if o.seq1 = o.seq2 then o.found
    else checkFobGo obs (i + 1) fuel

/-- `Shared::check_fob` under the observation oracle `obs`. -/
def checkFob (obs : Nat → SeqObs) : Bool :=
  checkFobGo obs 0 MAX_RETRIES

/-- An iteration observation is consistent when the generation token was
even before the scan and unchanged after it. -/
def SeqObs.consistent (o : SeqObs) : Prop :=
  o.seq1 % 2 = 0 ∧ o.seq1 = o.seq2

theorem checkFobGo_true_exists (obs : Nat → SeqObs) :
    ∀ fuel i, checkFobGo obs i fuel = true →
      ∃ n, (obs n).consistent ∧ (obs n).found = true := by
  intro fuel
  induction fuel with
  | zero => intro i h; simp [checkFobGo] at h
  | succ fuel ih =>
    intro i h
    unfold checkFobGo at h
    by_cases h1 : (obs i).seq1 % 2 = 1
    · exact ih (i + 1) (by simpa [h1] using h)
    · rw [if_neg h1] at h
      by_cases h2 : (obs i).seq1 = (obs i).seq2
      · refine ⟨i, ⟨by omega, h2⟩, ?_⟩
        rwa [if_pos h2] at h
      · exact ih (i + 1) (by rwa [if_neg h2] at h)

theorem checkFobGo_allBad_false (obs : Nat → SeqObs)
    (hbad : ∀ n, ¬ (obs n).consistent) :
    ∀ fuel i, checkFobGo obs i fuel = false := by
  intro fuel
  induction fuel with
  | zero => intro i; simp [checkFobGo]
  | succ fuel ih =>
    intro i
    unfold checkFobGo
    by_cases h1 : (obs i).seq1 % 2 = 1
    · simpa [h1] using ih (i + 1)
    · have h2 : (obs i).seq1 ≠ (obs i).seq2 := by
        intro he
        exact hbad i ⟨by omega, he⟩
      simpa [h1, h2] using ih (i + 1)

/-- C3: `check_fob` never returns `true` without some iteration having
completed a scan whose generation token was even and identical before
and after the scan (and whose scan found the fob); and if no iteration
ever obtains such a consistent read — the token stays odd or keeps
changing across every scan — the bounded retry loop fails closed and
returns `false`. -/
theorem check_fob_fail_closed (obs : Nat → SeqObs) :
    (checkFob obs = true →
      ∃ n, (obs n).consistent ∧ (obs n).found = true) ∧
    ((∀ n, ¬ (obs n).consistent) → checkFob obs = false) := by
  exact ⟨fun h => checkFobGo_true_exists obs MAX_RETRIES 0 h,
    fun hbad => checkFobGo_allBad_false obs hbad MAX_RETRIES 0⟩

/-- C3 witness: under permanent contention (the token is always odd, and
the scan — were it consulted — would report the fob as present) the
lookup still returns `false`. -/
theorem check_fob_fail_closed_witness :
    checkFob (fun _ => { seq1 := 1, found := true, seq2 := 1 }) = false := by
  exact (check_fob_fail_closed fun _ => { seq1 := 1, found := true, seq2 := 1 }).2
    (fun n => fun hc => by simp [SeqObs.consistent] at hc)

/-! ## Cross-core event ring (`src/shared.rs` lines 143–255)

`events: [AtomicU32; MAX_EVENTS]` with `event_head`/`event_tail`.  The
functions below give the semantics of one complete `push_event` /
`peek_events` call with no interference from the other core, i.e. every
compare-exchange succeeds and loads re-read the values this call wrote;
the `fob = 0` "not ready" sentinel handling of `peek_events` (spin, then
skip the slot) therefore resolves to "skip any slot whose stored fob
bits are zero". -/

/-- The packed event word built by `Shared::push_event`:
`fob = 0` is mapped to `1`, the fob is masked to its low 31 bits, and
bit 31 holds `allowed`. -/
def packEvent (fob : Nat) (allowed : Bool) : Nat :=
  let safe_fob := if fob = 0 then 1 else fob
  (safe_fob &&& 0x7FFFFFFF) ||| (if allowed then 1 else 0) <<< 31

/-- The ring state shared between the cores. -/
structure EventRing where
  events : Nat → Nat
  head : Nat
  tail : Nat

/-- `Shared::push_event` (`shared.rs` lines 153–195) without cross-core
interference: if the ring is full the tail compare-exchange succeeds and
the loop retries (discarding the oldest event), then the head
compare-exchange claims the slot and the packed word is stored at
`head % MAX_EVENTS`. -/
def pushEvent (r : EventRing) (fob : Nat) (allowed : Bool) : EventRing :=
  let r' := if (r.head + 1) % MAX_EVENTS = r.tail
    then { r with tail := (r.tail + 1) % MAX_EVENTS } else r
  { r' with
    events := fun j => if j = r'.head % MAX_EVENTS then packEvent fob allowed else r'.events j,
    head := (r'.head + 1) % MAX_EVENTS }

/-- The scan loop of `Shared::peek_events` (`shared.rs` lines 204–240)
for a caller buffer of length `MAX_EVENTS` (so the `count < out.len()`
bound never binds before `idx` reaches `head`): slots whose stored word
has zero fob bits are skipped (the sentinel spin hits its limit on a
value no writer is completing), all others are unpacked in order. -/
def peekEventsGo (r : EventRing) : Nat → Nat → List AccessEvent
  | _, 0 => []
  | idx, fuel + 1 =>
    if idx = r.head then []
    else
      let v := r.events (idx % MAX_EVENTS)
      let rest := peekEventsGo r ((idx + 1) % MAX_EVENTS) fuel
      if v &&& 0x7FFFFFFF ≠ 0 then
        { fob := v &&& 0x7FFFFFFF, allowed := v >>> 31 != 0 } :: rest
      else rest

/-- `Shared::peek_events`: the unpacked pending events and the tail
snapshot. -/
def peekEvents (r : EventRing) : List AccessEvent × Nat :=
  (peekEventsGo r r.tail MAX_EVENTS, r.tail)

/-- `Shared::commit_events` (`shared.rs` lines 246–255): a single
compare-exchange, a no-op whenever the tail moved. -/
def commitEvents (r : EventRing) (count expected_tail : Nat) : EventRing :=
  let new_tail := (expected_tail + count) % MAX_EVENTS
  if r.tail = expected_tail then { r with tail := new_tail } else r

theorem packEvent_low (fob : Nat) (allowed : Bool) :
    packEvent fob allowed &&& 0x7FFFFFFF =
      (if fob = 0 then 1 else fob) &&& 0x7FFFFFFF := by
  have hm : (0x7FFFFFFF : Nat) = 2 ^ 31 - 1 := by norm_num
  unfold packEvent
  rw [hm]
  apply Nat.eq_of_testBit_eq
  intro i
  rw [Nat.testBit_land, Nat.testBit_lor, Nat.testBit_land, Nat.testBit_shiftLeft,
    Nat.testBit_two_pow_sub_one]
  rcases Nat.lt_or_ge i 31 with hi | hi
  · simp [hi, Nat.not_le.mpr hi]
  · simp [Nat.not_lt.mpr hi]

theorem packEvent_high (fob : Nat) (allowed : Bool) :
    packEvent fob allowed >>> 31 = if allowed then 1 else 0 := by
  have hm : (0x7FFFFFFF : Nat) = 2 ^ 31 - 1 := by norm_num
  unfold packEvent
  rw [hm]
  apply Nat.eq_of_testBit_eq
  intro i
  rw [Nat.testBit_shiftRight, Nat.testBit_lor, Nat.testBit_land, Nat.testBit_shiftLeft,
    Nat.testBit_two_pow_sub_one]
  have h1 : ¬ (31 + i < 31) := by omega
  have h2 : (31 : Nat) ≤ 31 + i := by omega
  simp [h1, h2]

/-- C1 (amended): the two commit implementations behave differently once
an overflow moved `tail` away from the snapshot.  `EventBuffer::commit`
(`events.rs` lines 97–137, duplicated in `sync.rs`) advances `tail` to the
intended position `(tail_snapshot + count) % MAX_EVENTS` exactly when the
circular forward distance from the current tail to that position is below
`MAX_EVENTS / 2`, and otherwise leaves the whole buffer unchanged.
`Shared::commit_events` (`shared.rs` lines 246–255) is a single
compare-exchange: whenever the tail moved it is unconditionally a no-op,
regardless of that distance.  In both implementations the resulting tail
is either the old tail or the intended acknowledged-up-to position, never
beyond it. -/
theorem commit_policy_by_implementation (b : EventBufferInner) (r : EventRing)
    (count expected_tail : Nat) :
    ((b.tail ≠ expected_tail →
      (commitDistance b.tail ((expected_tail + count) % MAX_EVENTS) < MAX_EVENTS / 2 →
        (b.commit count expected_tail).tail = (expected_tail + count) % MAX_EVENTS) ∧
      (¬ commitDistance b.tail ((expected_tail + count) % MAX_EVENTS) < MAX_EVENTS / 2 →
        b.commit count expected_tail = b)) ∧
     ((b.commit count expected_tail).tail = b.tail ∨
      (b.commit count expected_tail).tail = (expected_tail + count) % MAX_EVENTS)) ∧
    ((r.tail ≠ expected_tail → commitEvents r count expected_tail = r) ∧
     ((commitEvents r count expected_tail).tail = r.tail ∨
      (commitEvents r count expected_tail).tail = (expected_tail + count) % MAX_EVENTS)) := by
  unfold EventBufferInner.commit commitDistance commitEvents
  refine ⟨⟨?_, ?_⟩, ?_, ?_⟩
  · intro hne
    constructor
    · intro hlt
      simp only [if_neg hne]
      rw [if_pos]
      exact hlt
    · intro hge
      simp only [if_neg hne]
      rw [if_neg]
      exact hge
  · by_cases h : b.tail = expected_tail
    · simp [h]
    · simp only [if_neg h]
      by_cases h2 :
          (if b.tail ≤ (expected_tail + count) % MAX_EVENTS
            then (expected_tail + count) % MAX_EVENTS - b.tail
            else MAX_EVENTS - b.tail + (expected_tail + count) % MAX_EVENTS) <
            MAX_EVENTS / 2
      · simp [h2]
      · simp [h2]
  · intro hne
    simp only [if_neg hne]
  · by_cases h : r.tail = expected_tail
    · right
      simp [h]
    · left
      simp [h]

/-- C1 witness: concrete post-overflow states for both implementations.
With `MAX_EVENTS = 20`, snapshot `0` and `count = 2`: a buffer whose tail
moved to `3` has forward distance `19 ≥ 10` from `3` to the target `2`,
so `EventBuffer::commit` is a no-op; a shared ring whose tail moved to
`2` makes `Shared::commit_events` a no-op outright. -/
theorem commit_policy_by_implementation_witness :
    (({ EventBufferInner.new with tail := 3 } : EventBufferInner).commit 2 0 =
      { EventBufferInner.new with tail := 3 }) ∧
    commitEvents { events := fun _ => 0, head := 4, tail := 2 } 2 0 =
      { events := fun _ => 0, head := 4, tail := 2 } := by
  refine ⟨?_, ?_⟩
  · exact ((commit_policy_by_implementation { EventBufferInner.new with tail := 3 }
      { events := fun _ => 0, head := 4, tail := 2 } 2 0).1.1 (by decide)).2 (by decide)
  · exact (commit_policy_by_implementation { EventBufferInner.new with tail := 3 }
      { events := fun _ => 0, head := 4, tail := 2 } 2 0).2.1 (by decide)

/-- C1 counterexample: `Shared::commit_events` (`shared.rs` lines
246–255) does not follow the forward-distance policy the claim states
for both commit paths.  After an overflow moved the shared ring's tail
from the snapshot `0` to `1`, committing `5` events targets tail
`(0 + 5) % 20 = 5`; the circular forward distance from `1` to `5` is
`4 < MAX_EVENTS / 2 = 10`, so the claim says the tail advances to `5` —
yet the compare-exchange fails and the tail stays `1`. -/
theorem commit_events_stale_noop :
    (commitEvents { events := fun _ => 0, head := 5, tail := 1 } 5 0).tail = 1 ∧
    commitDistance 1 ((0 + 5) % MAX_EVENTS) < MAX_EVENTS / 2 ∧
    (0 + 5) % MAX_EVENTS ≠ 1 :=
  ⟨rfl, by decide, by decide⟩

/-- The all-empty ring (initial state of `Shared::new`). -/
def eventRing0 : EventRing := { events := fun _ => 0, head := 0, tail := 0 }

/-- C10 counterexample: pushing `fob = 0x80000000` (bit 31 set, low 31
bits zero) stores the word `0x80000000`, whose fob bits are `0` — the
"not ready" sentinel — so `peek_events` skips the slot and returns no
event at all, contradicting the claim that the event is later returned
by `peek_events` with the fob masked to its low 31 bits. -/
theorem push_event_sentinel_lost :
    (peekEvents (pushEvent eventRing0 0x80000000 true)).1 = [] ∧
    (pushEvent eventRing0 0x80000000 true).events 0 = 0x80000000 := by
  constructor
  · rfl
  · rfl

/-- C10 (amended): for every `push_event(fob, allowed)` whose fob is `0`
or has a nonzero low-31-bit part, the word stored in the claimed slot is
`packEvent fob allowed`; its fob bits decode to `1` when `fob = 0` and
to `fob` masked to its low 31 bits otherwise, and bit 31 decodes back to
`allowed`; and pushing onto an empty ring (`head = tail`) makes
`peek_events` return exactly that decoded event.  (Excluded by the
amendment: `fob = 0x80000000`, whose packed word carries the sentinel
fob bits `0` and is skipped by `peek_events`, as shown by the
counterexample.) -/
theorem push_event_fob_mapping (r : EventRing) (fob : Nat) (allowed : Bool)
    (hh : r.head < MAX_EVENTS)
    (hfob : fob = 0 ∨ fob &&& 0x7FFFFFFF ≠ 0) :
    (pushEvent r fob allowed).events r.head = packEvent fob allowed ∧
    packEvent fob allowed &&& 0x7FFFFFFF =
      (if fob = 0 then 1 else fob &&& 0x7FFFFFFF) ∧
    (packEvent fob allowed >>> 31 != 0) = allowed ∧
    (r.head = r.tail →
      peekEvents (pushEvent r fob allowed) =
        ([{ fob := if fob = 0 then 1 else fob &&& 0x7FFFFFFF, allowed := allowed }],
          r.tail)) := by
  have hlow : packEvent fob allowed &&& 0x7FFFFFFF =
      (if fob = 0 then 1 else fob &&& 0x7FFFFFFF) := by
    rw [packEvent_low]
    by_cases h0 : fob = 0
    · simp [h0]
    · rw [if_neg h0, if_neg h0]
  have hlow_ne : packEvent fob allowed &&& 0x7FFFFFFF ≠ 0 := by
    rw [hlow]
    rcases hfob with h0 | hne
    · simp [h0]
    · rw [if_neg]
      · exact hne
      · intro h; rw [h] at hne; simp at hne
  have hhigh : (packEvent fob allowed >>> 31 != 0) = allowed := by
    rw [packEvent_high]
    cases allowed <;> rfl
  have hnotfull : ¬ (r.head + 1) % MAX_EVENTS = r.tail ∨ True := Or.inr trivial
  refine ⟨?_, hlow, hhigh, ?_⟩
  · unfold pushEvent
    by_cases hf : (r.head + 1) % MAX_EVENTS = r.tail
    · simp only [if_pos hf]
      rw [if_pos]
      exact (Nat.mod_eq_of_lt hh).symm
    · simp only [if_neg hf]
      rw [if_pos]
      exact (Nat.mod_eq_of_lt hh).symm
  · intro hempty
    have hf : ¬ (r.head + 1) % MAX_EVENTS = r.tail := by
      rw [← hempty]
      unfold MAX_EVENTS
      omega
    have hmod : r.head % MAX_EVENTS = r.head := Nat.mod_eq_of_lt hh
    have hstep1 : r.tail ≠ (r.head + 1) % MAX_EVENTS := by
      rw [← hempty]
      unfold MAX_EVENTS
      omega
    have hPhead : (pushEvent r fob allowed).head = (r.head + 1) % MAX_EVENTS := by
      simp [pushEvent, hf]
    have hPtail : (pushEvent r fob allowed).tail = r.tail := by
      simp [pushEvent, hf]
    have hPev : (pushEvent r fob allowed).events (r.tail % MAX_EVENTS) =
        packEvent fob allowed := by
      simp only [pushEvent, if_neg hf]
      rw [if_pos]
      rw [← hempty, hmod]
    have hgo : peekEventsGo (pushEvent r fob allowed) r.tail MAX_EVENTS =
        [{ fob := if fob = 0 then 1 else fob &&& 0x7FFFFFFF, allowed := allowed }] := by
      rw [show MAX_EVENTS = 19 + 1 from rfl]
      unfold peekEventsGo
      rw [if_neg (hPhead ▸ hstep1)]
      dsimp only
      rw [hPev, if_pos hlow_ne, hlow, hhigh]
      have hnext : (r.tail + 1) % MAX_EVENTS = (pushEvent r fob allowed).head := by
        rw [hPhead, ← hempty]
      unfold peekEventsGo
      rw [if_pos hnext]
    unfold peekEvents
    rw [hPtail, hgo]

/-- C10 witness: pushing `fob = 5, allowed = true` onto the empty ring
and peeking returns exactly that event. -/
theorem push_event_fob_mapping_witness :
    peekEvents (pushEvent eventRing0 5 true) = ([{ fob := 5, allowed := true }], 0) := by
  have h := (push_event_fob_mapping eventRing0 5 true (by decide)
    (Or.inr (by decide))).2.2.2 rfl
  simpa using h

/-! ## List-level theory of the event buffer (for C7/C8) -/

/-- Well-formedness of the ring indices (maintained by all operations,
and by `new`). -/
def EventBufferInner.wf (b : EventBufferInner) : Prop :=
  b.head < MAX_EVENTS ∧ b.tail < MAX_EVENTS

/-- The pending events of the buffer as a list: the `len` slots starting
at `tail`. -/
def EventBufferInner.peekList (b : EventBufferInner) : List AccessEvent :=
  (List.range b.len).map (fun j => b.events ((b.tail + j) % MAX_EVENTS))

theorem EventBufferInner.len_eq (b : EventBufferInner) (hb : b.wf) :
    b.len = (MAX_EVENTS + b.head - b.tail) % MAX_EVENTS := by
  obtain ⟨hh, ht⟩ := hb
  unfold EventBufferInner.len MAX_EVENTS at *
  split <;> omega

theorem EventBufferInner.peekGo_eq (b : EventBufferInner) (hh : b.head < MAX_EVENTS) :
    ∀ d fuel idx, idx < MAX_EVENTS → d = (MAX_EVENTS + b.head - idx) % MAX_EVENTS →
      d ≤ fuel →
      b.peekGo idx fuel = (List.range d).map (fun j => b.events ((idx + j) % MAX_EVENTS)) := by
  intro d
  induction d with
  | zero =>
    intro fuel idx hidx hd _
    have hidx_head : idx = b.head := by
      unfold MAX_EVENTS at *
      omega
    cases fuel with
    | zero => simp [peekGo]
    | succ f => simp [peekGo, hidx_head]
  | succ d ih =>
    intro fuel idx hidx hd hfuel
    have hne : idx ≠ b.head := by
      intro he
      subst he
      unfold MAX_EVENTS at hd
      omega
    obtain ⟨f, rfl⟩ : ∃ f, fuel = f + 1 := ⟨fuel - 1, by omega⟩
    show (if idx = b.head then [] else
      b.events idx :: b.peekGo ((idx + 1) % MAX_EVENTS) f) = _
    rw [if_neg hne]
    have hrec := ih f ((idx + 1) % MAX_EVENTS)
      (Nat.mod_lt _ (by unfold MAX_EVENTS; omega))
      (by unfold MAX_EVENTS at *; omega) (by omega)
    rw [hrec, List.range_succ_eq_map, List.map_cons, List.map_map]
    congr 1
    · show b.events idx = b.events ((idx + 0) % MAX_EVENTS)
      rw [Nat.add_zero, Nat.mod_eq_of_lt hidx]
    · apply List.map_congr_left
      intro j _
      show b.events (((idx + 1) % MAX_EVENTS + j) % MAX_EVENTS) = _
      rw [Nat.mod_add_mod]
      congr 2
      omega

theorem EventBufferInner.peek_eq_peekList (b : EventBufferInner) (hb : b.wf) :
    b.peekGo b.tail MAX_EVENTS = b.peekList := by
  unfold EventBufferInner.peekList
  exact b.peekGo_eq hb.1 b.len MAX_EVENTS b.tail hb.2 (b.len_eq hb)
    (by rw [b.len_eq hb]; exact Nat.le_of_lt (Nat.mod_lt _ (by unfold MAX_EVENTS; omega)))

theorem EventBufferInner.len_le (b : EventBufferInner) (hb : b.wf) :
    b.len ≤ MAX_EVENTS - 1 := by
  rw [b.len_eq hb]
  simp only [MAX_EVENTS]
  omega

theorem EventBufferInner.isFull_iff (b : EventBufferInner) (hb : b.wf) :
    b.isFull = true ↔ b.len = MAX_EVENTS - 1 := by
  obtain ⟨hh, ht⟩ := hb
  unfold EventBufferInner.isFull EventBufferInner.len MAX_EVENTS at *
  rw [beq_iff_eq]
  split <;> omega

/-- One-step simulation: `push` appends the event to the pending list,
first dropping the oldest pending event when the buffer is full. -/
theorem EventBufferInner.push_peekList (b : EventBufferInner) (hb : b.wf) (e : AccessEvent) :
    (b.push e).wf ∧
    (b.push e).peekList =
      (if b.len = MAX_EVENTS - 1 then b.peekList.drop 1 else b.peekList) ++ [e] ∧
    (b.push e).tail =
      (if b.len = MAX_EVENTS - 1 then (b.tail + 1) % MAX_EVENTS else b.tail) := by
  obtain ⟨hh, ht⟩ := hb
  have hth : (b.tail + b.len) % MAX_EVENTS = b.head := by
    rw [b.len_eq ⟨hh, ht⟩]
    simp only [MAX_EVENTS] at *
    omega
  by_cases hfull : b.isFull = true
  · have hlen : b.len = MAX_EVENTS - 1 := (b.isFull_iff ⟨hh, ht⟩).mp hfull
    have hpush : b.push e =
        { events := fun j => if j = b.head then e else b.events j,
          head := (b.head + 1) % MAX_EVENTS,
          tail := (b.tail + 1) % MAX_EVENTS } := by
      unfold EventBufferInner.push
      rw [if_pos hfull]
    have hwf : (b.push e).wf := by
      rw [hpush]
      exact ⟨Nat.mod_lt _ (by simp [MAX_EVENTS]), Nat.mod_lt _ (by simp [MAX_EVENTS])⟩
    have hlen' : (b.push e).len = MAX_EVENTS - 1 := by
      rw [(b.push e).len_eq hwf, hpush]
      simp only [MAX_EVENTS] at *
      omega
    refine ⟨hwf, ?_, ?_⟩
    · rw [if_pos hlen]
      have hL : (b.push e).peekList =
          (List.range 18).map
            (fun j => (b.push e).events (((b.push e).tail + j) % MAX_EVENTS))
          ++ [(b.push e).events (((b.push e).tail + 18) % MAX_EVENTS)] := by
        unfold EventBufferInner.peekList
        rw [hlen', show (MAX_EVENTS - 1 : Nat) = 18 + 1 from rfl, List.range_succ,
          List.map_append]
        rfl
      have hR : b.peekList.drop 1 =
          (List.range 18).map (fun j => b.events ((b.tail + (j + 1)) % MAX_EVENTS)) := by
        unfold EventBufferInner.peekList
        rw [hlen, show (MAX_EVENTS - 1 : Nat) = 18 + 1 from rfl, List.range_succ_eq_map,
          List.map_cons, List.drop_succ_cons, List.drop_zero, List.map_map]
        rfl
      rw [hL, hR]
      congr 1
      · apply List.map_congr_left
        intro j hj
        rw [List.mem_range] at hj
        rw [hpush]
        show (if ((b.tail + 1) % MAX_EVENTS + j) % MAX_EVENTS = b.head then e
          else b.events (((b.tail + 1) % MAX_EVENTS + j) % MAX_EVENTS)) =
          b.events ((b.tail + (j + 1)) % MAX_EVENTS)
        rw [Nat.mod_add_mod]
        simp only [MAX_EVENTS] at *
        have hne : (b.tail + 1 + j) % 20 ≠ b.head := by omega
        rw [if_neg hne]
        congr 1
        omega
      · rw [hpush]
        show [if ((b.tail + 1) % MAX_EVENTS + 18) % MAX_EVENTS = b.head then e
          else b.events (((b.tail + 1) % MAX_EVENTS + 18) % MAX_EVENTS)] = [e]
        rw [Nat.mod_add_mod]
        simp only [MAX_EVENTS] at *
        have heq : (b.tail + 1 + 18) % 20 = b.head := by omega
        rw [if_pos heq]
    · rw [hpush, if_pos hlen]
  · have hlen : b.len ≠ MAX_EVENTS - 1 := fun h => hfull ((b.isFull_iff ⟨hh, ht⟩).mpr h)
    have hpush : b.push e =
        { events := fun j => if j = b.head then e else b.events j,
          head := (b.head + 1) % MAX_EVENTS,
          tail := b.tail } := by
      unfold EventBufferInner.push
      rw [if_neg (by simpa using hfull)]
    have hwf : (b.push e).wf := by
      rw [hpush]
      exact ⟨Nat.mod_lt _ (by simp [MAX_EVENTS]), ht⟩
    have hlenle := b.len_le ⟨hh, ht⟩
    have hlen' : (b.push e).len = b.len + 1 := by
      rw [(b.push e).len_eq hwf, hpush, b.len_eq ⟨hh, ht⟩] at *
      simp only [MAX_EVENTS] at *
      omega
    refine ⟨hwf, ?_, ?_⟩
    · rw [if_neg hlen]
      unfold EventBufferInner.peekList
      rw [hlen', List.range_succ, List.map_append]
      congr 1
      · apply List.map_congr_left
        intro j hj
        rw [List.mem_range] at hj
        rw [hpush]
        show (if (b.tail + j) % MAX_EVENTS = b.head then e
          else b.events ((b.tail + j) % MAX_EVENTS)) = b.events ((b.tail + j) % MAX_EVENTS)
        have hne : (b.tail + j) % MAX_EVENTS ≠ b.head := by
          rw [← hth]
          rw [b.len_eq ⟨hh, ht⟩] at *
          simp only [MAX_EVENTS] at *
          omega
        rw [if_neg hne]
      · rw [hpush]
        show [if (b.tail + b.len) % MAX_EVENTS = b.head then e
          else b.events ((b.tail + b.len) % MAX_EVENTS)] = [e]
        rw [if_pos hth]
    · rw [hpush, if_neg hlen]

/-- Pushing a whole list of events in order. -/
def EventBufferInner.pushList (b : EventBufferInner) (xs : List AccessEvent) :
    EventBufferInner :=
  xs.foldl EventBufferInner.push b

/-- The abstract effect of one `push` on the pending list. -/
def mpush (l : List AccessEvent) (e : AccessEvent) : List AccessEvent :=
  (if l.length = MAX_EVENTS - 1 then l.drop 1 else l) ++ [e]

theorem EventBufferInner.peekList_length (b : EventBufferInner) :
    b.peekList.length = b.len := by
  simp [EventBufferInner.peekList]

theorem EventBufferInner.pushList_sim :
    ∀ (xs : List AccessEvent) (b : EventBufferInner), b.wf →
      (b.pushList xs).wf ∧
      (b.pushList xs).peekList = xs.foldl mpush b.peekList ∧
      (b.len + xs.length ≤ MAX_EVENTS - 1 → (b.pushList xs).tail = b.tail) := by
  intro xs
  induction xs with
  | nil =>
    intro b hb
    exact ⟨hb, rfl, fun _ => rfl⟩
  | cons x xs ih =>
    intro b hb
    obtain ⟨hwf, hpeek, htail⟩ := b.push_peekList hb x
    obtain ⟨ihwf, ihpeek, ihtail⟩ := ih (b.push x) hwf
    have hstep : (b.push x).peekList = mpush b.peekList x := by
      rw [hpeek]
      unfold mpush
      rw [b.peekList_length]
    refine ⟨ihwf, ?_, ?_⟩
    · show ((b.push x).pushList xs).peekList = xs.foldl mpush (mpush b.peekList x)
      rw [ihpeek, hstep]
    · intro hbound
      have hnf : b.len ≠ MAX_EVENTS - 1 := by
        simp only [MAX_EVENTS, List.length_cons] at *
        omega
      have hlen1 : (b.push x).len = b.len + 1 := by
        rw [← (b.push x).peekList_length, hstep]
        simp [mpush, b.peekList_length, hnf]
      have := ihtail (by simp only [MAX_EVENTS, List.length_cons] at *; omega)
      rw [show (b.pushList (x :: xs)) = ((b.push x).pushList xs) from rfl, this, htail,
        if_neg hnf]

theorem foldl_mpush_nil (xs : List AccessEvent) :
    xs.foldl mpush [] =
      if xs.length ≤ MAX_EVENTS - 1 then xs
      else xs.drop (xs.length - (MAX_EVENTS - 1)) := by
  simp only [MAX_EVENTS]
  induction xs using List.reverseRecOn with
  | nil => simp
  | append_singleton xs e ih =>
    rw [List.foldl_append]
    show mpush (xs.foldl mpush []) e = _
    rw [ih]
    simp only [List.length_append, List.length_singleton]
    by_cases h1 : xs.length ≤ 18
    · rw [if_pos (by omega), if_pos (by omega)]
      simp only [mpush, MAX_EVENTS]
      rw [if_neg (by omega)]
    · by_cases h2 : xs.length = 19
      · rw [if_pos (by omega), if_neg (by omega)]
        simp only [mpush, MAX_EVENTS]
        rw [if_pos (by omega), List.drop_append_of_le_length (by omega),
          show xs.length + 1 - (20 - 1) = 1 from by omega]
      · rw [if_neg (by omega), if_neg (by omega)]
        simp only [mpush, MAX_EVENTS]
        rw [if_pos (by rw [List.length_drop]; omega),
          List.drop_append_of_le_length (by omega), List.drop_drop,
          show xs.length - (20 - 1) + 1 = xs.length + 1 - (20 - 1) from by omega]

theorem EventBufferInner.new_wf : EventBufferInner.new.wf := by
  constructor <;> simp [EventBufferInner.new, MAX_EVENTS]

theorem EventBufferInner.new_peekList : EventBufferInner.new.peekList = [] := rfl

/-- C7: pushing any sequence of at least `MAX_EVENTS` events into an
empty buffer (with no intervening `peek`/`commit`) leaves the length at
exactly `MAX_EVENTS - 1`, and the buffer then contains exactly the most
recently pushed `MAX_EVENTS - 1` events in push order (as returned by
`peek`): the oldest events were discarded. -/
theorem push_overflow_keeps_latest (xs : List AccessEvent)
    (h : MAX_EVENTS ≤ xs.length) :
    (EventBufferInner.new.pushList xs).len = MAX_EVENTS - 1 ∧
    (EventBufferInner.new.pushList xs).peek.2.1 =
      xs.drop (xs.length - (MAX_EVENTS - 1)) := by
  obtain ⟨hwf, hpeek, -⟩ :=
    EventBufferInner.pushList_sim xs EventBufferInner.new EventBufferInner.new_wf
  rw [EventBufferInner.new_peekList, foldl_mpush_nil] at hpeek
  have hnle : ¬ xs.length ≤ MAX_EVENTS - 1 := by
    simp only [MAX_EVENTS] at *
    omega
  rw [if_neg hnle] at hpeek
  constructor
  · rw [← EventBufferInner.peekList_length, hpeek, List.length_drop]
    simp only [MAX_EVENTS] at *
    omega
  · show (EventBufferInner.new.pushList xs).peekGo
      (EventBufferInner.new.pushList xs).tail MAX_EVENTS = _
    rw [EventBufferInner.peek_eq_peekList _ hwf, hpeek]

/-- A small helper to build distinct concrete events. -/
def evList (n : Nat) : List AccessEvent :=
  (List.range n).map (fun i => { fob := i + 1, allowed := false })

/-- C7 witness: pushing 21 events into the empty buffer leaves 19 events,
namely the last 19 pushed, in order. -/
theorem push_overflow_keeps_latest_witness :
    (EventBufferInner.new.pushList (evList 21)).len = MAX_EVENTS - 1 ∧
    (EventBufferInner.new.pushList (evList 21)).peek.2.1 =
      (evList 21).drop ((evList 21).length - (MAX_EVENTS - 1)) :=
  push_overflow_keeps_latest (evList 21) (by decide)

/-- C8 counterexample: pushing exactly `MAX_EVENTS = 20` events (a
sequence "not exceeding the buffer capacity") into the empty buffer does
NOT preserve every pushed event: the 20th push finds the buffer full
(the ring keeps at most `MAX_EVENTS - 1 = 19` events) and discards the
oldest, so the subsequent `peek` returns only the last 19 events. -/
theorem peek_at_capacity_loses_oldest :
    (EventBufferInner.new.pushList (evList MAX_EVENTS)).peek.2.1 =
      (evList MAX_EVENTS).drop 1 ∧
    (evList MAX_EVENTS).drop 1 ≠ evList MAX_EVENTS ∧
    (evList MAX_EVENTS).length = MAX_EVENTS := by
  refine ⟨?_, by decide, by decide⟩
  obtain ⟨hwf, hpeek, -⟩ := EventBufferInner.pushList_sim (evList MAX_EVENTS)
    EventBufferInner.new EventBufferInner.new_wf
  rw [EventBufferInner.new_peekList, foldl_mpush_nil, if_neg (by decide)] at hpeek
  show (EventBufferInner.new.pushList (evList MAX_EVENTS)).peekGo
    (EventBufferInner.new.pushList (evList MAX_EVENTS)).tail MAX_EVENTS = _
  rw [EventBufferInner.peek_eq_peekList _ hwf, hpeek]
  congr 1

/-- C8 (amended): for every sequence of pushes of length at most
`MAX_EVENTS - 1` (one less than the array capacity — the ring buffer
keeps at most `MAX_EVENTS - 1` events), starting from an empty buffer, a
subsequent `peek` returns every pushed event in push order with its
fields unmodified, together with the number of events and the tail value
at the time of the copy, and leaves the buffer state unchanged.
(Excluded by the amendment: a sequence of exactly `MAX_EVENTS` pushes,
where the final push discards the oldest event, as shown by the
counterexample.) -/
theorem peek_returns_pushes_in_order (xs : List AccessEvent)
    (h : xs.length ≤ MAX_EVENTS - 1) :
    (EventBufferInner.new.pushList xs).peek =
      (EventBufferInner.new.pushList xs, xs, 0) := by
  obtain ⟨hwf, hpeek, htail⟩ :=
    EventBufferInner.pushList_sim xs EventBufferInner.new EventBufferInner.new_wf
  rw [EventBufferInner.new_peekList, foldl_mpush_nil, if_pos h] at hpeek
  have htail0 : (EventBufferInner.new.pushList xs).tail = 0 := by
    apply htail
    show EventBufferInner.new.len + xs.length ≤ MAX_EVENTS - 1
    have h0 : EventBufferInner.new.len = 0 := rfl
    omega
  show (_, EventBufferInner.peekGo _ _ MAX_EVENTS, _) = _
  rw [EventBufferInner.peek_eq_peekList _ hwf, hpeek, htail0]

/-- C8 witness: pushing 5 events and peeking returns exactly those 5
events in order with tail snapshot 0 and the state unchanged. -/
theorem peek_returns_pushes_in_order_witness :
    (EventBufferInner.new.pushList (evList 5)).peek =
      (EventBufferInner.new.pushList (evList 5), evList 5, 0) :=
  peek_returns_pushes_in_order (evList 5) (by decide)

/-! ## Wiegand decoders (`src/wiegand.rs` lines 182–221) -/

/-- Binary popcount with explicit fuel (structural recursion, so that
concrete values reduce in the kernel); the fuel only needs to be at
least the argument. -/
def onesCountAux : Nat → Nat → Nat
  | 0, _ => 0
  | fuel + 1, n => if n = 0 then 0 else n % 2 + onesCountAux fuel (n / 2)

/-- `u32::count_ones` / `u64::count_ones`, as binary popcount. -/
def onesCount (n : Nat) : Nat := onesCountAux n n

theorem onesCountAux_fuel (f1 : Nat) :
    ∀ f2 n, n ≤ f1 → n ≤ f2 → onesCountAux f1 n = onesCountAux f2 n := by
  induction f1 using Nat.strong_induction_on with
  | _ f1 ih =>
    intro f2 n h1 h2
    rcases Nat.eq_zero_or_pos n with h0 | hpos
    · subst h0
      rcases f1 with _ | g1 <;> rcases f2 with _ | g2 <;> simp [onesCountAux]
    · obtain ⟨g1, rfl⟩ : ∃ g1, f1 = g1 + 1 := ⟨f1 - 1, by omega⟩
      obtain ⟨g2, rfl⟩ : ∃ g2, f2 = g2 + 1 := ⟨f2 - 1, by omega⟩
      show (if n = 0 then 0 else n % 2 + onesCountAux g1 (n / 2)) =
        (if n = 0 then 0 else n % 2 + onesCountAux g2 (n / 2))
      rw [if_neg (by omega), if_neg (by omega),
        ih g1 (by omega) g2 (n / 2) (by omega) (by omega)]

/-- `WiegandRead` from `wiegand.rs`. -/
structure WiegandRead where
  facility : Nat
  card : Nat
  raw_data : Nat
deriving DecidableEq

/-- `Wiegand::decode_26` (`wiegand.rs` lines 182–201).  The incoming
`raw: u64` is truncated to `u32` (`raw as u32`). -/
def decode_26 (raw : Nat) : Option WiegandRead :=
  let raw := raw % 2 ^ 32
  let leading := (raw >>> 25) &&& 1
  let trailing := raw &&& 1
  let data := (raw >>> 1) &&& 0xFFFFFF
  let upper := data >>> 12
  let lower := data &&& 0xFFF
  let even_ok : Bool := onesCount upper % 2 == leading
  let odd_ok : Bool := onesCount lower % 2 != trailing
  if !even_ok || !odd_ok then none
  else some { facility := (data >>> 16) &&& 0xFF, card := data &&& 0xFFFF, raw_data := data }

/-- `Wiegand::decode_34` (`wiegand.rs` lines 203–221), on the full
`u64` accumulator value. -/
def decode_34 (raw : Nat) : Option WiegandRead :=
  let leading := (raw >>> 33) &&& 1
  let trailing := raw &&& 1
  let data := (raw >>> 1) &&& 0xFFFFFFFF
  let upper := data >>> 16
  let lower := data &&& 0xFFFF
  let even_ok : Bool := onesCount upper % 2 == leading
  let odd_ok : Bool := onesCount lower % 2 != trailing
  if !even_ok || !odd_ok then none
  else some { facility := (data >>> 16) &&& 0xFF, card := data &&& 0xFFFF, raw_data := data }

theorem onesCount_step (x : Nat) : onesCount x = x % 2 + onesCount (x / 2) := by
  cases x with
  | zero => simp [onesCount, onesCountAux]
  | succ n =>
    show onesCountAux (n + 1) (n + 1) = _
    rw [show onesCountAux (n + 1) (n + 1) =
      (if n + 1 = 0 then 0 else (n + 1) % 2 + onesCountAux n ((n + 1) / 2)) from rfl,
      if_neg (Nat.succ_ne_zero n), onesCountAux_fuel n ((n + 1) / 2) ((n + 1) / 2)
        (by omega) (le_refl _)]
    rfl

theorem onesCount_eq_sum (k : Nat) :
    ∀ x : Nat, x < 2 ^ k →
      onesCount x = ∑ t ∈ Finset.range k, (if x.testBit t then 1 else 0) := by
  induction k with
  | zero =>
    intro x hx
    interval_cases x
    simp [onesCount, onesCountAux]
  | succ k ih =>
    intro x hx
    rw [onesCount_step, Finset.sum_range_succ', ih (x / 2) (by omega)]
    have hbit0 : (if x.testBit 0 then 1 else 0) = x % 2 := by
      rw [Nat.testBit_zero]
      rcases Nat.mod_two_eq_zero_or_one x with h | h <;> simp [h]
    have hbits : ∀ t, ((x / 2).testBit t) = x.testBit (t + 1) := by
      intro t
      rw [Nat.testBit_succ]
    rw [hbit0]
    rw [Finset.sum_congr rfl (fun t _ => by rw [hbits t])]
    omega

/-- Parity (in `ZMod 2`) of the `w` bits of `x` starting at bit `lo`. -/
def bitP (x lo w : Nat) : ZMod 2 :=
  ∑ t ∈ Finset.range w, (if x.testBit (lo + t) then 1 else 0)

theorem and_two_pow_sub_one (x w : Nat) : x &&& (2 ^ w - 1) = x % 2 ^ w := by
  apply Nat.eq_of_testBit_eq
  intro i
  rw [Nat.testBit_land, Nat.testBit_two_pow_sub_one, Nat.testBit_mod_two_pow, Bool.and_comm]

theorem testBit_div_pow (y k t : Nat) : (y / 2 ^ k).testBit t = y.testBit (k + t) := by
  rw [← Nat.shiftRight_eq_div_pow, Nat.testBit_shiftRight]

theorem and_one_eq_ite (y : Nat) : y &&& 1 = if y.testBit 0 then 1 else 0 := by
  have h1 : y &&& 1 = y % 2 := by
    have := and_two_pow_sub_one y 1
    simpa using this
  rw [h1, Nat.testBit_zero]
  rcases Nat.mod_two_eq_zero_or_one y with h | h <;> simp [h]

theorem onesCount_cast_sum (k y : Nat) (hy : y < 2 ^ k) :
    (onesCount y : ZMod 2) =
      ∑ t ∈ Finset.range k, (if y.testBit t then 1 else 0) := by
  rw [onesCount_eq_sum k y hy, Nat.cast_sum]
  apply Finset.sum_congr rfl
  intro t _
  split <;> simp

theorem zmod2_eq_iff_add (a b : ZMod 2) : a = b ↔ a + b = 0 := by
  revert a b
  decide

theorem nat_eq_iff_zmod2 (a b : Nat) (ha : a < 2) (hb : b < 2) :
    a = b ↔ (a : ZMod 2) = (b : ZMod 2) := by
  constructor
  · intro h
    rw [h]
  · intro h
    have := congrArg ZMod.val h
    rwa [ZMod.val_cast_of_lt ha, ZMod.val_cast_of_lt hb] at this

theorem nat_ne_iff_zmod2 (a b : Nat) (ha : a < 2) (hb : b < 2) :
    a ≠ b ↔ (a : ZMod 2) + (b : ZMod 2) = 1 := by
  interval_cases a <;> interval_cases b <;> simp <;> decide

theorem upper_parity (x w : Nat) :
    (onesCount (x / 2 % 2 ^ (2 * w) / 2 ^ w) : ZMod 2) = bitP x (w + 1) w := by
  have hlt : x / 2 % 2 ^ (2 * w) / 2 ^ w < 2 ^ w := by
    apply Nat.div_lt_of_lt_mul
    rw [← pow_add]
    have h2 : 0 < 2 ^ (2 * w) := Nat.pos_pow_of_pos _ (by omega)
    calc x / 2 % 2 ^ (2 * w) < 2 ^ (2 * w) := Nat.mod_lt _ h2
    _ ≤ 2 ^ (w + w) := by rw [Nat.two_mul]
  rw [onesCount_cast_sum w _ hlt]
  unfold bitP
  apply Finset.sum_congr rfl
  intro t ht
  rw [Finset.mem_range] at ht
  rw [testBit_div_pow, Nat.testBit_mod_two_pow]
  have hwt : w + t < 2 * w := by omega
  rw [decide_eq_true hwt, Bool.true_and]
  have : (x / 2).testBit (w + t) = x.testBit (w + 1 + t) := by
    rw [← Nat.testBit_succ]
    congr 1
    omega
  rw [this]

theorem lower_parity (x w : Nat) :
    (onesCount (x / 2 % 2 ^ w) : ZMod 2) = bitP x 1 w := by
  have hlt : x / 2 % 2 ^ w < 2 ^ w := Nat.mod_lt _ (Nat.pos_pow_of_pos _ (by omega))
  rw [onesCount_cast_sum w _ hlt]
  unfold bitP
  apply Finset.sum_congr rfl
  intro t ht
  rw [Finset.mem_range] at ht
  rw [Nat.testBit_mod_two_pow, decide_eq_true ht, Bool.true_and]
  have : (x / 2).testBit t = x.testBit (1 + t) := by
    rw [show (1 + t) = t + 1 from by omega, Nat.testBit_succ]
  rw [this]

theorem bitP_split_last (x lo w : Nat) :
    bitP x lo (w + 1) = bitP x lo w + (if x.testBit (lo + w) then 1 else 0) := by
  unfold bitP
  rw [Finset.sum_range_succ]

theorem bitP_split_first (x w : Nat) :
    bitP x 0 (w + 1) = bitP x 1 w + (if x.testBit 0 then 1 else 0) := by
  unfold bitP
  rw [Finset.sum_range_succ']
  simp only [Nat.zero_add]
  congr 1
  apply Finset.sum_congr rfl
  intro t _
  rw [Nat.add_comm 1 t]

theorem bitP_flip (x i lo w : Nat) :
    bitP (x ^^^ 2 ^ i) lo w =
      bitP x lo w + (if lo ≤ i ∧ i < lo + w then 1 else 0) := by
  unfold bitP
  have hterm : ∀ t, ((if (x ^^^ 2 ^ i).testBit (lo + t) then 1 else 0) : ZMod 2) =
      (if x.testBit (lo + t) then 1 else 0) + (if i = lo + t then 1 else 0) := by
    intro t
    rw [Nat.testBit_xor, Nat.testBit_two_pow]
    cases hx : x.testBit (lo + t) <;> cases hd : (decide (i = lo + t)) <;>
      simp_all <;> decide
  rw [Finset.sum_congr rfl (fun t _ => hterm t), Finset.sum_add_distrib]
  congr 1
  by_cases hin : lo ≤ i ∧ i < lo + w
  · rw [if_pos hin]
    have huniq : ∀ t ∈ Finset.range w, (i = lo + t) ↔ (t = i - lo) := by
      intro t _
      omega
    rw [Finset.sum_congr rfl (fun t ht => by rw [if_congr (huniq t ht) rfl rfl])]
    rw [Finset.sum_ite_eq' (Finset.range w) (i - lo) (fun _ => (1 : ZMod 2))]
    rw [if_pos (Finset.mem_range.mpr (by omega))]
  · rw [if_neg hin]
    apply Finset.sum_eq_zero
    intro t ht
    rw [Finset.mem_range] at ht
    rw [if_neg (by omega)]

theorem ite_none_isSome {α : Type} (c : Prop) [Decidable c] (a : α) :
    ((if c then none else some a).isSome = true) ↔ ¬ c := by
  split <;> simp_all

theorem cast_ite_zmod (b : Bool) :
    (((if b then 1 else 0 : Nat)) : ZMod 2) = if b then 1 else 0 := by
  cases b <;> simp

/-- The common parity-acceptance core of `decode_26`/`decode_34` with
payload half-width `w`, phrased over bit-window parities of the raw
frame: the even check covers bits `w+1 … 2w+1` (upper payload half plus
the leading parity bit), the odd check covers bits `0 … w` (lower
payload half plus the trailing parity bit). -/
theorem parity_accept (x w : Nat) :
    (((onesCount (x / 2 % 2 ^ (2 * w) / 2 ^ w) % 2 ==
        (if x.testBit (2 * w + 1) then 1 else 0)) = true) ∧
     ((onesCount (x / 2 % 2 ^ w) % 2 !=
        (if x.testBit 0 then 1 else 0)) = true))
    ↔ (bitP x (w + 1) (w + 1) = 0 ∧ bitP x 0 (w + 1) = 1) := by
  have hiteLt : (if x.testBit (2 * w + 1) then 1 else 0) < 2 := by split <;> omega
  have hiteLt0 : (if x.testBit 0 then 1 else 0) < 2 := by split <;> omega
  constructor
  · rintro ⟨he, ho⟩
    rw [beq_iff_eq] at he
    rw [bne_iff_ne] at ho
    constructor
    · rw [nat_eq_iff_zmod2 _ _ (Nat.mod_lt _ (by omega)) hiteLt, ZMod.natCast_mod,
        upper_parity, cast_ite_zmod] at he
      rw [bitP_split_last, show w + 1 + w = 2 * w + 1 from by omega,
        ← zmod2_eq_iff_add]
      exact he
    · rw [nat_ne_iff_zmod2 _ _ (Nat.mod_lt _ (by omega)) hiteLt0, ZMod.natCast_mod,
        lower_parity, cast_ite_zmod] at ho
      rw [bitP_split_first]
      exact ho
  · rintro ⟨he, ho⟩
    rw [bitP_split_last, show w + 1 + w = 2 * w + 1 from by omega,
      ← zmod2_eq_iff_add] at he
    rw [bitP_split_first] at ho
    constructor
    · rw [beq_iff_eq, nat_eq_iff_zmod2 _ _ (Nat.mod_lt _ (by omega)) hiteLt,
        ZMod.natCast_mod, upper_parity, cast_ite_zmod]
      exact he
    · rw [bne_iff_ne, nat_ne_iff_zmod2 _ _ (Nat.mod_lt _ (by omega)) hiteLt0,
        ZMod.natCast_mod, lower_parity, cast_ite_zmod]
      exact ho

theorem bool_guard_iff (A B : Bool) :
    (¬ ((!A || !B) = true)) ↔ (A = true ∧ B = true) := by
  cases A <;> cases B <;> simp

theorem decode_26_isSome_iff (x : Nat) (hx : x < 2 ^ 26) :
    (decode_26 x).isSome = true ↔ (bitP x 13 13 = 0 ∧ bitP x 0 13 = 1) := by
  have hx32 : x % 2 ^ 32 = x := Nat.mod_eq_of_lt (lt_trans hx (by norm_num))
  have hdata : (x >>> 1) &&& 0xFFFFFF = x / 2 % 2 ^ 24 := by
    rw [Nat.shiftRight_eq_div_pow, pow_one,
      show (0xFFFFFF : Nat) = 2 ^ 24 - 1 from by norm_num, and_two_pow_sub_one]
  have hupper : ((x >>> 1) &&& 0xFFFFFF) >>> 12 = x / 2 % 2 ^ (2 * 12) / 2 ^ 12 := by
    rw [hdata, Nat.shiftRight_eq_div_pow]
  have hlower : ((x >>> 1) &&& 0xFFFFFF) &&& 0xFFF = x / 2 % 2 ^ 12 := by
    rw [hdata, show (0xFFF : Nat) = 2 ^ 12 - 1 from by norm_num, and_two_pow_sub_one,
      Nat.mod_mod_of_dvd _ (pow_dvd_pow 2 (by omega))]
  have hleading : (x >>> 25) &&& 1 = if x.testBit (2 * 12 + 1) then 1 else 0 := by
    rw [and_one_eq_ite, Nat.testBit_shiftRight]
  have htrailing : x &&& 1 = if x.testBit 0 then 1 else 0 := and_one_eq_ite x
  simp only [decode_26]
  rw [hx32, ite_none_isSome, hupper, hlower, hleading, htrailing, bool_guard_iff]
  exact parity_accept x 12

theorem decode_34_isSome_iff (x : Nat) :
    (decode_34 x).isSome = true ↔ (bitP x 17 17 = 0 ∧ bitP x 0 17 = 1) := by
  have hdata : (x >>> 1) &&& 0xFFFFFFFF = x / 2 % 2 ^ 32 := by
    rw [Nat.shiftRight_eq_div_pow, pow_one,
      show (0xFFFFFFFF : Nat) = 2 ^ 32 - 1 from by norm_num, and_two_pow_sub_one]
  have hupper : ((x >>> 1) &&& 0xFFFFFFFF) >>> 16 = x / 2 % 2 ^ (2 * 16) / 2 ^ 16 := by
    rw [hdata, Nat.shiftRight_eq_div_pow]
  have hlower : ((x >>> 1) &&& 0xFFFFFFFF) &&& 0xFFFF = x / 2 % 2 ^ 16 := by
    rw [hdata, show (0xFFFF : Nat) = 2 ^ 16 - 1 from by norm_num, and_two_pow_sub_one,
      Nat.mod_mod_of_dvd _ (pow_dvd_pow 2 (by omega))]
  have hleading : (x >>> 33) &&& 1 = if x.testBit (2 * 16 + 1) then 1 else 0 := by
    rw [and_one_eq_ite, Nat.testBit_shiftRight]
  have htrailing : x &&& 1 = if x.testBit 0 then 1 else 0 := and_one_eq_ite x
  simp only [decode_34]
  rw [ite_none_isSome, hupper, hlower, hleading, htrailing, bool_guard_iff]
  exact parity_accept x 16

/-- C9: for every 26-bit frame accepted by `decode_26` (i.e. satisfying
the even/odd parity scheme over its two 12-bit payload halves) and every
34-bit frame accepted by `decode_34` (the analogous scheme over 16-bit
halves), flipping any single bit of the frame yields a frame the decoder
rejects, producing no credential. -/
theorem decode_single_bit_flip_rejected (raw : Nat) :
    (raw < 2 ^ 26 → (decode_26 raw).isSome = true →
      ∀ i, i < 26 → decode_26 (raw ^^^ 2 ^ i) = none) ∧
    (raw < 2 ^ 34 → (decode_34 raw).isSome = true →
      ∀ i, i < 34 → decode_34 (raw ^^^ 2 ^ i) = none) := by
  constructor
  · intro hlt hsome i hi
    obtain ⟨hP, hQ⟩ := (decode_26_isSome_iff raw hlt).mp hsome
    have hxlt : raw ^^^ 2 ^ i < 2 ^ 26 :=
      Nat.xor_lt_two_pow hlt (Nat.pow_lt_pow_right (by omega) hi)
    rw [← Option.not_isSome_iff_eq_none]
    intro hsome'
    obtain ⟨hP', hQ'⟩ := (decode_26_isSome_iff _ hxlt).mp hsome'
    rw [bitP_flip] at hP' hQ'
    by_cases hcase : i < 13
    · rw [hQ, if_pos (by omega)] at hQ'
      revert hQ'
      decide
    · rw [hP, if_pos (by omega)] at hP'
      revert hP'
      decide
  · intro hlt hsome i hi
    obtain ⟨hP, hQ⟩ := (decode_34_isSome_iff raw).mp hsome
    rw [← Option.not_isSome_iff_eq_none]
    intro hsome'
    obtain ⟨hP', hQ'⟩ := (decode_34_isSome_iff _).mp hsome'
    rw [bitP_flip] at hP' hQ'
    by_cases hcase : i < 17
    · rw [hQ, if_pos (by omega)] at hQ'
      revert hQ'
      decide
    · rw [hP, if_pos (by omega)] at hP'
      revert hP'
      decide

/-- C9 witness: the frame `1` (payload 0, trailing odd-parity bit 1) is
a valid 26-bit and 34-bit frame, and flipping its trailing bit (bit 0)
makes both decoders reject. -/
theorem decode_single_bit_flip_rejected_witness :
    (decode_26 1).isSome = true ∧ (decode_34 1).isSome = true ∧
    decode_26 (1 ^^^ 2 ^ 0) = none ∧ decode_34 (1 ^^^ 2 ^ 0) = none := by
  refine ⟨by decide, by decide, ?_, ?_⟩
  · exact (decode_single_bit_flip_rejected 1).1 (by decide) (by decide) 0 (by decide)
  · exact (decode_single_bit_flip_rejected 1).2 (by decide) (by decide) 0 (by decide)

/-! ## Flash storage (`src/storage.rs`)

Flash slots are byte lists (`List Nat`, entries `< 256` for data the
code itself wrote); reading byte `i` of a slot buffer returns `0` beyond
the stored prefix (modelling the erased remainder of the 32 KiB slot,
which the code never includes in any checksum it verifies).  The `etag`
is modelled as its byte string; `core::str::from_utf8` round-trips the
(always valid UTF-8) bytes the code itself stored, so parsing is the
identity on those bytes. -/

/-- `STORAGE_MAGIC` from `storage.rs` (`"CONW"`). -/
def STORAGE_MAGIC : Nat := 0x434F4E57

/-- `SLOT_SIZE` from `storage.rs` (32 KiB). -/
def SLOT_SIZE : Nat := 0x8000

/-- `FLASH_HANDSHAKE_TIMEOUT_MS` from `storage.rs`. -/
def FLASH_HANDSHAKE_TIMEOUT_MS : Nat := 500

/-- `crc32`'s inner loop body: one of the 8 polynomial-division steps. -/
def crc32Round (crc : Nat) : Nat :=
  if crc % 2 = 1 then (crc / 2) ^^^ 0xEDB88320 else crc / 2

/-- Processing one byte of `crc32`: xor it in, then 8 rounds. -/
def crc32Byte (crc byte : Nat) : Nat :=
  (List.range 8).foldl (fun c _ => crc32Round c) (crc ^^^ byte)

/-- `crc32` from `storage.rs` (reflected polynomial `0xEDB88320`,
initial and final complement). -/
def crc32 (data : List Nat) : Nat :=
  (data.foldl crc32Byte 0xFFFFFFFF) ^^^ 0xFFFFFFFF

/-- Reading byte `i` of a slot buffer (erased / unwritten bytes read as
`0`). -/
def byteAt (buf : List Nat) (i : Nat) : Nat := buf.getD i 0

/-- `u32::from_le_bytes`. -/
def leBytes4 (b0 b1 b2 b3 : Nat) : Nat :=
  b0 + b1 * 256 + b2 * 65536 + b3 * 16777216

/-- `u32::to_le_bytes` (of a value `< 2^32`). -/
def u32ToLeBytes (x : Nat) : List Nat :=
  [x % 256, x / 256 % 256, x / 65536 % 256, x / 16777216 % 256]

/-- Read the little-endian `u32` at offset `off` of a slot buffer. -/
def readLe4 (buf : List Nat) (off : Nat) : Nat :=
  leBytes4 (byteAt buf off) (byteAt buf (off + 1)) (byteAt buf (off + 2))
    (byteAt buf (off + 3))

/-- The bytes at offsets `[a, b)` of a slot buffer (the slice
`buf[a..b]` of the 32 KiB read buffer). -/
def sliceD (buf : List Nat) (a b : Nat) : List Nat :=
  (List.range (b - a)).map (fun i => byteAt buf (a + i))

/-- `Storage::read_slot` (`storage.rs` lines 130–218): validate magic,
bounds and CRC, and return `(sequence, etag bytes, fobs)`. -/
def readSlot (buf : List Nat) : Option (Nat × List Nat × List Nat) :=
  let magic := readLe4 buf 0
  if magic ≠ STORAGE_MAGIC then none
  else
    let sequence := readLe4 buf 4
    let stored_crc := readLe4 buf 8
    let etag_len := readLe4 buf 12
    if etag_len > 64 then none
    else
      let etag_end := 16 + etag_len
      let fob_count_offset := etag_end
      if fob_count_offset + 4 > SLOT_SIZE then none
      else
        let fob_count := readLe4 buf fob_count_offset
        let fobs_start := fob_count_offset + 4
        let fobs_end := fobs_start + fob_count * 4
        if fob_count > MAX_FOBS ∨ fobs_end > SLOT_SIZE then none
        else
          let data_crc := crc32 (sliceD buf 12 fobs_end)
          if data_crc ≠ stored_crc then none
          else
            let etag := sliceD buf 16 etag_end
            let fobs := (List.range fob_count).map
              (fun i => readLe4 buf (fobs_start + i * 4))
            some (sequence, etag, fobs)

/-- `Storage::read_slot_sequence` (`storage.rs` lines 270–291):
magic-validated header read of the sequence number only (no CRC). -/
def readSlotSequence (buf : List Nat) : Option Nat :=
  let magic := readLe4 buf 0
  if magic ≠ STORAGE_MAGIC then none else some (readLe4 buf 4)

/-- The in-memory `Storage` struct (`storage.rs` lines 107–114). -/
structure Storage where
  fobs : List Nat
  etag : List Nat
  dirty : Bool
  sequence : Nat
deriving DecidableEq

/-- The two flash slots. -/
structure Flash where
  slotA : List Nat
  slotB : List Nat
deriving DecidableEq

/-- `u32::saturating_add 1`. -/
def satAdd1 (x : Nat) : Nat := min (x + 1) (2 ^ 32 - 1)

/-- `u32::saturating_sub 1` (on values modelled in `Nat`). -/
def satSub1 (x : Nat) : Nat := x - 1

/-- `Storage::load_from_flash` (`storage.rs` lines 222–265): read both
slots, keep the valid one with the higher sequence (slot A on a tie),
or leave the freshly-initialised state when neither is valid. -/
def loadFromFlash (fl : Flash) : Storage :=
  let init : Storage := { fobs := [], etag := [], dirty := false, sequence := 0 }
  match readSlot fl.slotA, readSlot fl.slotB with
  | some (seqA, etagA, fobsA), some (seqB, etagB, fobsB) =>
    if seqB > seqA then { fobs := fobsB, etag := etagB, dirty := false, sequence := seqB }
    else { fobs := fobsA, etag := etagA, dirty := false, sequence := seqA }
  | some (seqA, etagA, fobsA), none =>
    { fobs := fobsA, etag := etagA, dirty := false, sequence := seqA }
  | none, some (seqB, etagB, fobsB) =>
    { fobs := fobsB, etag := etagB, dirty := false, sequence := seqB }
  | none, none => init

/-- The serialised record `save_to_flash` writes: magic, sequence, CRC
over the data portion, then the data portion (etag length, etag bytes,
fob count, fob words). -/
def saveBuf (sequence : Nat) (etag fobs : List Nat) : List Nat :=
  let data := u32ToLeBytes etag.length ++ etag ++
    u32ToLeBytes fobs.length ++ (fobs.map u32ToLeBytes).flatten
  u32ToLeBytes STORAGE_MAGIC ++ u32ToLeBytes sequence ++
    u32ToLeBytes (crc32 data) ++ data

/-- `flash.write(offset, buf)`: replaces the written prefix of the slot,
preserving the remainder. -/
def flashWrite (old buf : List Nat) : List Nat := buf ++ old.drop buf.length

/-- Whether `save_to_flash` targets slot A, from the two header
sequence reads (`storage.rs` lines 318–325): the slot with the lower
sequence; slot A when both are absent or equal; the invalid slot when
exactly one is valid. -/
def saveTargetA (seqA seqB : Option Nat) : Bool :=
  match seqA, seqB with
  | some a, some b => if b < a then false else true
  | none, some _ => true
  | some _, none => false
  | none, none => true

/-- Outcomes of `save_to_flash`'s interactions with the shared handshake
and the flash driver, supplied by the environment: whether
`SHARED.request_flash_write()` succeeded, whether
`SHARED.wait_for_flash_safe(...)` returned true, and whether
`flash.write(...)` returned `Ok`. -/
structure SaveEnv where
  requestOk : Bool
  safeOk : Bool
  writeOk : Bool

/-- `Storage::save_to_flash` (`storage.rs` lines 301–457): pick the
target slot from the header sequences, increment the in-memory sequence
(saturating), serialise, then run the handshake; on a failed request or
an unsafe timeout, fail without touching flash and roll the sequence
back (saturating); on a failed write, roll back the sequence.  Returns
the storage, the flash, and the success flag. -/
def saveToFlash (s : Storage) (fl : Flash) (env : SaveEnv) :
    Storage × Flash × Bool :=
  let seqA := readSlotSequence fl.slotA
  let seqB := readSlotSequence fl.slotB
  let targetA := saveTargetA seqA seqB
  let s1 : Storage := { s with sequence := satAdd1 s.sequence }
  let buf := saveBuf s1.sequence s1.etag s1.fobs
  if !env.requestOk then ({ s1 with sequence := satSub1 s1.sequence }, fl, false)
  else if !env.safeOk then ({ s1 with sequence := satSub1 s1.sequence }, fl, false)
  else
    let fl' := if targetA then { fl with slotA := flashWrite fl.slotA buf }
      else { fl with slotB := flashWrite fl.slotB buf }
    if env.writeOk then (s1, fl', true)
    else ({ s1 with sequence := satSub1 s1.sequence }, fl', false)

theorem u32ToLeBytes_length (x : Nat) : (u32ToLeBytes x).length = 4 := rfl

theorem byteAt_append_lt (l r : List Nat) (i : Nat) (h : i < l.length) :
    byteAt (l ++ r) i = byteAt l i :=
  List.getD_append l r 0 i h

theorem byteAt_skip (l r : List Nat) (k : Nat) :
    byteAt (l ++ r) (l.length + k) = byteAt r k := by
  unfold byteAt
  rw [List.getD_append_right l r 0 (l.length + k) (by omega)]
  congr 1
  omega

theorem readLe4_here (x : Nat) (hx : x < 2 ^ 32) (rest : List Nat) :
    readLe4 (u32ToLeBytes x ++ rest) 0 = x := by
  unfold readLe4 u32ToLeBytes byteAt leBytes4
  simp only [List.getD_cons_zero, List.cons_append, List.getD_cons_succ]
  omega

theorem readLe4_skip (l rest : List Nat) (k : Nat) :
    readLe4 (l ++ rest) (l.length + k) = readLe4 rest k := by
  unfold readLe4
  rw [show l.length + k + 1 = l.length + (k + 1) from by omega,
    show l.length + k + 2 = l.length + (k + 2) from by omega,
    show l.length + k + 3 = l.length + (k + 3) from by omega,
    byteAt_skip, byteAt_skip, byteAt_skip, byteAt_skip]

theorem map_getD_range (l : List Nat) :
    (List.range l.length).map (fun i => l.getD i 0) = l := by
  induction l with
  | nil => simp
  | cons a t ih =>
    rw [List.length_cons, List.range_succ_eq_map, List.map_cons, List.map_map]
    simp only [List.getD_cons_zero]
    congr 1

theorem sliceD_skip (l rest : List Nat) (a b : Nat) :
    sliceD (l ++ rest) (l.length + a) (l.length + b) = sliceD rest a b := by
  unfold sliceD
  rw [show l.length + b - (l.length + a) = b - a from by omega]
  apply List.map_congr_left
  intro i _
  rw [show l.length + a + i = l.length + (a + i) from by omega, byteAt_skip]

theorem sliceD_here (d rest : List Nat) :
    sliceD (d ++ rest) 0 d.length = d := by
  unfold sliceD
  rw [Nat.sub_zero]
  have h : ∀ i ∈ List.range d.length, byteAt (d ++ rest) (0 + i) = d.getD i 0 := by
    intro i hi
    rw [List.mem_range] at hi
    rw [Nat.zero_add, byteAt_append_lt d rest i hi]
    rfl
  rw [List.map_congr_left h, map_getD_range]

theorem crc32Round_lt (c : Nat) (hc : c < 2 ^ 32) : crc32Round c < 2 ^ 32 := by
  unfold crc32Round
  split
  · exact Nat.xor_lt_two_pow (by omega) (by norm_num)
  · omega

theorem crc32Byte_lt (c b : Nat) (hc : c < 2 ^ 32) (hb : b < 2 ^ 32) :
    crc32Byte c b < 2 ^ 32 := by
  unfold crc32Byte
  have hstart : c ^^^ b < 2 ^ 32 := Nat.xor_lt_two_pow hc hb
  have hgen : ∀ (l : List Nat) (x : Nat), x < 2 ^ 32 →
      l.foldl (fun c _ => crc32Round c) x < 2 ^ 32 := by
    intro l
    induction l with
    | nil => intro x hx; exact hx
    | cons y t ih =>
      intro x hx
      exact ih (crc32Round x) (crc32Round_lt x hx)
  exact hgen (List.range 8) (c ^^^ b) hstart

theorem crc32_lt (data : List Nat) (hd : ∀ b ∈ data, b < 2 ^ 32) :
    crc32 data < 2 ^ 32 := by
  unfold crc32
  have hfold : ∀ (l : List Nat) (x : Nat), (∀ b ∈ l, b < 2 ^ 32) → x < 2 ^ 32 →
      l.foldl crc32Byte x < 2 ^ 32 := by
    intro l
    induction l with
    | nil => intro x _ hx; exact hx
    | cons y t ih =>
      intro x hl hx
      exact ih (crc32Byte x y) (fun b hb => hl b (List.mem_cons_of_mem y hb))
        (crc32Byte_lt x y hx (hl y (List.mem_cons_self y t)))
  exact Nat.xor_lt_two_pow (hfold data 0xFFFFFFFF hd (by norm_num)) (by norm_num)

theorem flatten_u32_length (fobs : List Nat) :
    ((fobs.map u32ToLeBytes).flatten).length = 4 * fobs.length := by
  induction fobs with
  | nil => simp
  | cons f t ih =>
    rw [List.map_cons, List.flatten_cons, List.length_append, ih,
      u32ToLeBytes_length, List.length_cons]
    omega

theorem read_fob_words (fobs : List Nat) (hfw : ∀ f ∈ fobs, f < 2 ^ 32) :
    ∀ rest : List Nat,
      (List.range fobs.length).map
        (fun i => readLe4 ((fobs.map u32ToLeBytes).flatten ++ rest) (i * 4)) = fobs := by
  induction fobs with
  | nil => simp
  | cons f t ih =>
    intro rest
    rw [List.length_cons, List.range_succ_eq_map, List.map_cons, List.map_map,
      List.map_cons, List.flatten_cons, List.append_assoc]
    have ht : ∀ g ∈ t, g < 2 ^ 32 := fun g hg => hfw g (List.mem_cons_of_mem f hg)
    have hhead : readLe4 (u32ToLeBytes f ++ ((t.map u32ToLeBytes).flatten ++ rest))
        (0 * 4) = f := by
      rw [Nat.zero_mul]
      exact readLe4_here f (hfw f (List.mem_cons_self f t)) _
    have hcong : ∀ i ∈ List.range t.length,
        ((fun i => readLe4 (u32ToLeBytes f ++ ((t.map u32ToLeBytes).flatten ++ rest))
          (i * 4)) ∘ Nat.succ) i =
        readLe4 ((t.map u32ToLeBytes).flatten ++ rest) (i * 4) := by
      intro i _
      show readLe4 (u32ToLeBytes f ++ ((t.map u32ToLeBytes).flatten ++ rest))
        (Nat.succ i * 4) = _
      rw [show Nat.succ i * 4 = (u32ToLeBytes f).length + i * 4 from by
        rw [u32ToLeBytes_length]; omega, readLe4_skip]
    rw [hhead, List.map_congr_left hcong, ih ht rest]

/-- The serialised fob words. -/
def fobBytes (fobs : List Nat) : List Nat := (fobs.map u32ToLeBytes).flatten

/-- The CRC-covered data portion of a record. -/
def recData (etag fobs : List Nat) : List Nat :=
  u32ToLeBytes etag.length ++ etag ++ u32ToLeBytes fobs.length ++ fobBytes fobs

theorem saveBuf_decomp (seq : Nat) (etag fobs : List Nat) :
    saveBuf seq etag fobs =
      u32ToLeBytes STORAGE_MAGIC ++ (u32ToLeBytes seq ++
        (u32ToLeBytes (crc32 (recData etag fobs)) ++ recData etag fobs)) := rfl

theorem recData_bytes_lt (etag fobs : List Nat) (he : ∀ b ∈ etag, b < 256) :
    ∀ b ∈ recData etag fobs, b < 2 ^ 32 := by
  have hu : ∀ (x : Nat), ∀ b ∈ u32ToLeBytes x, b < 2 ^ 32 := by
    intro x b hb
    unfold u32ToLeBytes at hb
    simp only [List.mem_cons, List.not_mem_nil, or_false] at hb
    rcases hb with h | h | h | h <;> subst h <;>
      exact lt_trans (Nat.mod_lt _ (by omega)) (by norm_num)
  intro b hb
  unfold recData at hb
  simp only [List.append_assoc, List.mem_append] at hb
  rcases hb with h | h | h | h
  · exact hu _ b h
  · exact lt_trans (he b h) (by norm_num)
  · exact hu _ b h
  · unfold fobBytes at h
    rw [List.mem_flatten] at h
    obtain ⟨l, hl, hbl⟩ := h
    rw [List.mem_map] at hl
    obtain ⟨f, -, rfl⟩ := hl
    exact hu f b hbl

theorem readSlot_record (seq : Nat) (etag fobs tl : List Nat)
    (hseq : seq < 2 ^ 32) (hetag : etag.length ≤ 64) (hebytes : ∀ b ∈ etag, b < 256)
    (hfobs : fobs.length ≤ MAX_FOBS) (hfw : ∀ f ∈ fobs, f < 2 ^ 32) :
    readSlot (u32ToLeBytes STORAGE_MAGIC ++ (u32ToLeBytes seq ++
        (u32ToLeBytes (crc32 (recData etag fobs)) ++ (u32ToLeBytes etag.length ++
          (etag ++ (u32ToLeBytes fobs.length ++ (fobBytes fobs ++ tl))))))) =
      some (seq, etag, fobs) ∧
    readSlotSequence (u32ToLeBytes STORAGE_MAGIC ++ (u32ToLeBytes seq ++
        (u32ToLeBytes (crc32 (recData etag fobs)) ++ (u32ToLeBytes etag.length ++
          (etag ++ (u32ToLeBytes fobs.length ++ (fobBytes fobs ++ tl))))))) =
      some seq := by
  set G : List Nat := fobBytes fobs ++ tl with hG
  set F : List Nat := u32ToLeBytes fobs.length ++ G with hF
  set E : List Nat := etag ++ F with hE
  set D : List Nat := u32ToLeBytes etag.length ++ E with hD
  set C : List Nat := u32ToLeBytes (crc32 (recData etag fobs)) ++ D with hC
  set R : List Nat := u32ToLeBytes seq ++ C with hR
  have rMagic : readLe4 (u32ToLeBytes STORAGE_MAGIC ++ R) 0 = STORAGE_MAGIC :=
    readLe4_here _ (by norm_num [STORAGE_MAGIC]) _
  have rSeq : readLe4 (u32ToLeBytes STORAGE_MAGIC ++ R) 4 = seq := by
    have h1 := readLe4_skip (u32ToLeBytes STORAGE_MAGIC) R 0
    rw [u32ToLeBytes_length, Nat.add_zero] at h1
    rw [h1, hR]
    exact readLe4_here _ hseq _
  have rC : readLe4 (u32ToLeBytes STORAGE_MAGIC ++ R) 8 =
      crc32 (recData etag fobs) := by
    have h1 := readLe4_skip (u32ToLeBytes STORAGE_MAGIC) R 4
    rw [u32ToLeBytes_length, show (4 : Nat) + 4 = 8 from by norm_num] at h1
    have h2 := readLe4_skip (u32ToLeBytes seq) C 0
    rw [u32ToLeBytes_length, Nat.add_zero] at h2
    rw [h1, hR, h2, hC]
    exact readLe4_here _ (crc32_lt _ (recData_bytes_lt etag fobs hebytes)) _
  have rE : readLe4 (u32ToLeBytes STORAGE_MAGIC ++ R) 12 = etag.length := by
    have h1 := readLe4_skip (u32ToLeBytes STORAGE_MAGIC) R 8
    rw [u32ToLeBytes_length, show (4 : Nat) + 8 = 12 from by norm_num] at h1
    have h2 := readLe4_skip (u32ToLeBytes seq) C 4
    rw [u32ToLeBytes_length, show (4 : Nat) + 4 = 8 from by norm_num] at h2
    have h3 := readLe4_skip (u32ToLeBytes (crc32 (recData etag fobs))) D 0
    rw [u32ToLeBytes_length, Nat.add_zero] at h3
    rw [h1, hR, h2, hC, h3, hD]
    exact readLe4_here _ (by omega) _
  have rFC : readLe4 (u32ToLeBytes STORAGE_MAGIC ++ R) (16 + etag.length) =
      fobs.length := by
    have h1 := readLe4_skip (u32ToLeBytes STORAGE_MAGIC) R (12 + etag.length)
    rw [u32ToLeBytes_length,
      show (4 : Nat) + (12 + etag.length) = 16 + etag.length from by omega] at h1
    have h2 := readLe4_skip (u32ToLeBytes seq) C (8 + etag.length)
    rw [u32ToLeBytes_length,
      show (4 : Nat) + (8 + etag.length) = 12 + etag.length from by omega] at h2
    have h3 := readLe4_skip (u32ToLeBytes (crc32 (recData etag fobs))) D (4 + etag.length)
    rw [u32ToLeBytes_length,
      show (4 : Nat) + (4 + etag.length) = 8 + etag.length from by omega] at h3
    have h4 := readLe4_skip (u32ToLeBytes etag.length) E etag.length
    rw [u32ToLeBytes_length] at h4
    have h5 := readLe4_skip etag F 0
    rw [Nat.add_zero] at h5
    rw [h1, hR, h2, hC, h3, hD, h4, hE, h5, hF]
    have hcount : fobs.length < 2 ^ 32 := by
      simp only [MAX_FOBS] at hfobs
      omega
    exact readLe4_here _ hcount _
  have hDrec : D = recData etag fobs ++ tl := by
    rw [hD, hE, hF, hG]
    simp [recData, fobBytes, List.append_assoc]
  have hsl12 : sliceD (u32ToLeBytes STORAGE_MAGIC ++ R) 12
      (16 + etag.length + 4 + fobs.length * 4) = recData etag fobs := by
    have s1 := sliceD_skip (u32ToLeBytes STORAGE_MAGIC) R 8
      (12 + etag.length + 4 + fobs.length * 4)
    rw [u32ToLeBytes_length, show (4 : Nat) + 8 = 12 from by norm_num,
      show (4 : Nat) + (12 + etag.length + 4 + fobs.length * 4) =
        16 + etag.length + 4 + fobs.length * 4 from by omega] at s1
    have s2 := sliceD_skip (u32ToLeBytes seq) C 4
      (8 + etag.length + 4 + fobs.length * 4)
    rw [u32ToLeBytes_length, show (4 : Nat) + 4 = 8 from by norm_num,
      show (4 : Nat) + (8 + etag.length + 4 + fobs.length * 4) =
        12 + etag.length + 4 + fobs.length * 4 from by omega] at s2
    have s3 := sliceD_skip (u32ToLeBytes (crc32 (recData etag fobs))) D 0
      (4 + etag.length + 4 + fobs.length * 4)
    rw [u32ToLeBytes_length, Nat.add_zero,
      show (4 : Nat) + (4 + etag.length + 4 + fobs.length * 4) =
        8 + etag.length + 4 + fobs.length * 4 from by omega] at s3
    have hlen : (recData etag fobs).length =
        4 + etag.length + 4 + fobs.length * 4 := by
      unfold recData fobBytes
      rw [List.length_append, List.length_append, List.length_append,
        u32ToLeBytes_length, u32ToLeBytes_length, flatten_u32_length]
      omega
    rw [s1, hR, s2, hC, s3, hDrec, ← hlen]
    exact sliceD_here _ _
  have hsl16 : sliceD (u32ToLeBytes STORAGE_MAGIC ++ R) 16 (16 + etag.length) =
      etag := by
    have s1 := sliceD_skip (u32ToLeBytes STORAGE_MAGIC) R 12 (12 + etag.length)
    rw [u32ToLeBytes_length, show (4 : Nat) + 12 = 16 from by norm_num,
      show (4 : Nat) + (12 + etag.length) = 16 + etag.length from by omega] at s1
    have s2 := sliceD_skip (u32ToLeBytes seq) C 8 (8 + etag.length)
    rw [u32ToLeBytes_length, show (4 : Nat) + 8 = 12 from by norm_num,
      show (4 : Nat) + (8 + etag.length) = 12 + etag.length from by omega] at s2
    have s3 := sliceD_skip (u32ToLeBytes (crc32 (recData etag fobs))) D 4
      (4 + etag.length)
    rw [u32ToLeBytes_length, show (4 : Nat) + 4 = 8 from by norm_num,
      show (4 : Nat) + (4 + etag.length) = 8 + etag.length from by omega] at s3
    have s4 := sliceD_skip (u32ToLeBytes etag.length) E 0 etag.length
    rw [u32ToLeBytes_length, Nat.add_zero] at s4
    rw [s1, hR, s2, hC, s3, hD, s4, hE]
    exact sliceD_here etag F
  have hfmap : (List.range fobs.length).map
      (fun i => readLe4 (u32ToLeBytes STORAGE_MAGIC ++ R) (16 + etag.length + 4 + i * 4)) =
      fobs := by
    have hcong : ∀ i ∈ List.range fobs.length,
        readLe4 (u32ToLeBytes STORAGE_MAGIC ++ R) (16 + etag.length + 4 + i * 4) =
        readLe4 G (i * 4) := by
      intro i _
      have h1 := readLe4_skip (u32ToLeBytes STORAGE_MAGIC) R (12 + etag.length + 4 + i * 4)
      rw [u32ToLeBytes_length,
        show (4 : Nat) + (12 + etag.length + 4 + i * 4) =
          16 + etag.length + 4 + i * 4 from by omega] at h1
      have h2 := readLe4_skip (u32ToLeBytes seq) C (8 + etag.length + 4 + i * 4)
      rw [u32ToLeBytes_length,
        show (4 : Nat) + (8 + etag.length + 4 + i * 4) =
          12 + etag.length + 4 + i * 4 from by omega] at h2
      have h3 := readLe4_skip (u32ToLeBytes (crc32 (recData etag fobs))) D
        (4 + etag.length + 4 + i * 4)
      rw [u32ToLeBytes_length,
        show (4 : Nat) + (4 + etag.length + 4 + i * 4) =
          8 + etag.length + 4 + i * 4 from by omega] at h3
      have h4 := readLe4_skip (u32ToLeBytes etag.length) E (etag.length + 4 + i * 4)
      rw [u32ToLeBytes_length,
        show (4 : Nat) + (etag.length + 4 + i * 4) =
          4 + etag.length + 4 + i * 4 from by omega] at h4
      have h5 := readLe4_skip etag F (4 + i * 4)
      rw [show etag.length + (4 + i * 4) = etag.length + 4 + i * 4 from by omega] at h5
      have h6 := readLe4_skip (u32ToLeBytes fobs.length) G (i * 4)
      rw [u32ToLeBytes_length] at h6
      rw [h1, hR, h2, hC, h3, hD, h4, hE, h5, hF, h6]
    rw [List.map_congr_left hcong, hG]
    exact read_fob_words fobs hfw tl
  constructor
  · simp only [readSlot]
    rw [rMagic, rSeq, rC, rE]
    rw [if_neg (by simp)]
    rw [if_neg (by omega)]
    rw [if_neg (by simp only [SLOT_SIZE]; omega)]
    rw [rFC]
    rw [if_neg (by simp only [MAX_FOBS, SLOT_SIZE] at *; omega)]
    rw [hsl12]
    rw [if_neg (by simp)]
    rw [hsl16, hfmap]
  · simp only [readSlotSequence]
    rw [rMagic, rSeq]
    rw [if_neg (by simp)]

/-- Round-trip: a slot freshly written by `save_to_flash`'s serialiser
validates and reads back exactly the written record. -/
theorem readSlot_flashWrite (old : List Nat) (seq : Nat) (etag fobs : List Nat)
    (hseq : seq < 2 ^ 32) (hetag : etag.length ≤ 64) (hebytes : ∀ b ∈ etag, b < 256)
    (hfobs : fobs.length ≤ MAX_FOBS) (hfw : ∀ f ∈ fobs, f < 2 ^ 32) :
    readSlot (flashWrite old (saveBuf seq etag fobs)) = some (seq, etag, fobs) ∧
    readSlotSequence (flashWrite old (saveBuf seq etag fobs)) = some seq := by
  have hfull : flashWrite old (saveBuf seq etag fobs) =
      u32ToLeBytes STORAGE_MAGIC ++ (u32ToLeBytes seq ++
        (u32ToLeBytes (crc32 (recData etag fobs)) ++ (u32ToLeBytes etag.length ++
          (etag ++ (u32ToLeBytes fobs.length ++
            (fobBytes fobs ++ old.drop (saveBuf seq etag fobs).length)))))) := by
    unfold flashWrite
    rw [saveBuf_decomp]
    simp [recData, fobBytes, List.append_assoc]
  rw [hfull]
  exact readSlot_record seq etag fobs _ hseq hetag hebytes hfobs hfw

/-- A slot validated by `read_slot` also passes the cheaper
`read_slot_sequence` header check, with the same sequence number. -/
theorem readSlot_some_seq (buf : List Nat) (q : Nat) (e f : List Nat)
    (h : readSlot buf = some (q, e, f)) :
    readSlotSequence buf = some q := by
  unfold readSlot at h
  unfold readSlotSequence
  dsimp only at h ⊢
  split_ifs at h with h1 h2 h3 h4 h5
  · rw [if_neg h1]
    simp only [Option.some.injEq, Prod.mk.injEq] at h
    rw [h.1]
  all_goals simp_all

/-! ## `Shared::wait_for_flash_safe` (`src/shared.rs` lines 359–381)

The concurrently-changing `flash_state` observed by each poll iteration
and the elapsed time (`now - start`) at each iteration are supplied by
oracles; the result records the returned boolean together with the store
the function performed on the shared state (`some Idle` exactly when the
timeout reset ran).  The fuel bounds the number of poll iterations
modelled; `none` means the wait was still polling. -/

def waitGo (obs : Nat → FlashState) (elapsed : Nat → Nat) (timeout : Nat) :
    Nat → Nat → Option (Bool × Option FlashState)
  | _, 0 => none
  | i, fuel + 1 =>
    if obs i = FlashState.Safe then some (true, none)
    else if obs i ≠ FlashState.Requested then some (false, none)
    else if timeout < elapsed i then some (false, some FlashState.Idle)
    else waitGo obs elapsed timeout (i + 1) fuel

theorem waitGo_store_only_idle (obs : Nat → FlashState) (elapsed : Nat → Nat)
    (timeout : Nat) :
    ∀ fuel i res, waitGo obs elapsed timeout i fuel = some res →
      res.2 = none ∨ res = (false, some FlashState.Idle) := by
  intro fuel
  induction fuel with
  | zero => intro i res h; simp [waitGo] at h
  | succ fuel ih =>
    intro i res h
    unfold waitGo at h
    split_ifs at h with h1 h2 h3
    · cases h; left; rfl
    · cases h; left; rfl
    · cases h; right; rfl
    · exact ih (i + 1) res h

/-- C5 counterexample (sequence rollback at the saturation bound): with
the in-memory sequence counter at `u32::MAX = 2^32 - 1`, a save whose
handshake request fails leaves the counter at `2^32 - 2`, not at its
pre-call value: `saturating_add(1)` stays at the bound and the
subsequent `saturating_sub(1)` then undershoots. -/
theorem save_rollback_saturation :
    (saveToFlash { fobs := [], etag := [], dirty := false, sequence := 2 ^ 32 - 1 }
        { slotA := [], slotB := [] }
        { requestOk := false, safeOk := false, writeOk := false }).1.sequence =
      2 ^ 32 - 2 ∧
    (2 : Nat) ^ 32 - 2 ≠ 2 ^ 32 - 1 := by
  constructor
  · rfl
  · decide

/-- C5 (amended): if `save_to_flash` cannot obtain the write-safety
handshake — the request fails because the coordination state is not
`Idle`, or Core 0 does not signal `Safe` within the bounded timeout —
then the save returns failure without performing any flash write, and
(provided the in-memory sequence counter is below its u32 saturation
bound `2^32 - 1`, as forced by the counterexample) the counter is
restored to its pre-call value so the next attempt targets the same
slot; moreover the only store `wait_for_flash_safe` ever performs on the
coordination state is the reset to `Idle` on its failing timeout path,
and on that path (state still `Requested`, elapsed time beyond the
timeout) it returns `false` after storing `Idle`. -/
theorem save_handshake_failure (s : Storage) (fl : Flash) (env : SaveEnv)
    (obs : Nat → FlashState) (elapsed : Nat → Nat) (timeout : Nat)
    (hfail : env.requestOk = false ∨ env.safeOk = false) :
    ((saveToFlash s fl env).2.1 = fl ∧
     (saveToFlash s fl env).2.2 = false ∧
     (s.sequence < 2 ^ 32 - 1 → (saveToFlash s fl env).1.sequence = s.sequence)) ∧
    (∀ fuel i res, waitGo obs elapsed timeout i fuel = some res →
      res.2 = none ∨ res = (false, some FlashState.Idle)) ∧
    (∀ i fuel, obs i = FlashState.Requested → timeout < elapsed i →
      waitGo obs elapsed timeout i (fuel + 1) = some (false, some FlashState.Idle)) := by
  have heval : saveToFlash s fl env =
      ({ s with sequence := satSub1 (satAdd1 s.sequence) }, fl, false) := by
    rcases hfail with h | h
    · simp [saveToFlash, h]
    · cases hr : env.requestOk
      · simp [saveToFlash, hr]
      · simp [saveToFlash, hr, h]
  refine ⟨⟨by rw [heval], by rw [heval], fun hlt => ?_⟩,
    waitGo_store_only_idle obs elapsed timeout, fun i fuel h1 h2 => ?_⟩
  · rw [heval]
    show satSub1 (satAdd1 s.sequence) = s.sequence
    unfold satAdd1 satSub1
    omega
  · unfold waitGo
    rw [if_neg (by simp [h1]), if_neg (by simp [h1]), if_pos h2]

/-- C5 witness: a failed request with sequence 5 leaves flash untouched,
reports failure, restores the counter; and a wait that sees `Requested`
with 1000 ms elapsed against a 500 ms timeout returns false and stores
`Idle`. -/
theorem save_handshake_failure_witness :
    (saveToFlash { fobs := [], etag := [], dirty := false, sequence := 5 }
        { slotA := [], slotB := [] }
        { requestOk := false, safeOk := true, writeOk := true }).2.1 =
      { slotA := [], slotB := [] } ∧
    (saveToFlash { fobs := [], etag := [], dirty := false, sequence := 5 }
        { slotA := [], slotB := [] }
        { requestOk := false, safeOk := true, writeOk := true }).2.2 = false ∧
    (saveToFlash { fobs := [], etag := [], dirty := false, sequence := 5 }
        { slotA := [], slotB := [] }
        { requestOk := false, safeOk := true, writeOk := true }).1.sequence = 5 ∧
    waitGo (fun _ => FlashState.Requested) (fun _ => 1000) 500 0 1 =
      some (false, some FlashState.Idle) := by
  have h := save_handshake_failure
    { fobs := [], etag := [], dirty := false, sequence := 5 }
    { slotA := [], slotB := [] }
    { requestOk := false, safeOk := true, writeOk := true }
    (fun _ => FlashState.Requested) (fun _ => 1000) 500 (Or.inl rfl)
  exact ⟨h.1.1, h.1.2.1, h.1.2.2 (by decide), h.2.2 0 0 rfl (by decide)⟩

theorem saveToFlash_ok_eval (s : Storage) (fl : Flash) (sa sb : Nat)
    (hA : readSlotSequence fl.slotA = some sa)
    (hB : readSlotSequence fl.slotB = some sb) :
    saveToFlash s fl { requestOk := true, safeOk := true, writeOk := true } =
      ({ s with sequence := satAdd1 s.sequence },
       if saveTargetA (some sa) (some sb) then
         { fl with slotA := (flashWrite fl.slotA
             (saveBuf (satAdd1 s.sequence) s.etag s.fobs)) }
       else
         { fl with slotB := (flashWrite fl.slotB
             (saveBuf (satAdd1 s.sequence) s.etag s.fobs)) },
       true) := by
  simp [saveToFlash, hA, hB]

theorem saveTargetA_lower_a (a b : Nat) (h : ¬ b < a) :
    saveTargetA (some a) (some b) = true := by
  show (if b < a then false else true) = true
  rw [if_neg h]

theorem saveTargetA_lower_b (a b : Nat) (h : b < a) :
    saveTargetA (some a) (some b) = false := by
  show (if b < a then false else true) = false
  rw [if_pos h]

/-- The behaviour C2 asserts of two consecutive successful saves,
starting from a storage/flash state and changing the cached data to
`etag2`/`fobs2` between the saves.  The intermediate results are bound
by equations so the statement follows the actual call sequence. -/
def SaveAlternationSpec (s : Storage) (fl : Flash) (a b : Nat)
    (etag2 fobs2 : List Nat) : Prop :=
  ∀ s1 fl1 ok1,
    saveToFlash s fl { requestOk := true, safeOk := true, writeOk := true } =
      (s1, fl1, ok1) →
    ok1 = true ∧
    (a < b → readSlot fl1.slotA = some (max a b + 1, s.etag, s.fobs) ∧
      fl1.slotB = fl.slotB) ∧
    (b < a → readSlot fl1.slotB = some (max a b + 1, s.etag, s.fobs) ∧
      fl1.slotA = fl.slotA) ∧
    ∀ s2 fl2 ok2,
      saveToFlash { s1 with etag := etag2, fobs := fobs2 } fl1
        { requestOk := true, safeOk := true, writeOk := true } = (s2, fl2, ok2) →
      ok2 = true ∧
      (a < b → readSlot fl2.slotB = some (max a b + 2, etag2, fobs2) ∧
        fl2.slotA = fl1.slotA) ∧
      (b < a → readSlot fl2.slotA = some (max a b + 2, etag2, fobs2) ∧
        fl2.slotB = fl1.slotB) ∧
      loadFromFlash fl2 =
        { fobs := fobs2, etag := etag2, dirty := false, sequence := max a b + 2 }

theorem satAdd1_eq (x : Nat) (h : x + 1 < 2 ^ 32) : satAdd1 x = x + 1 := by
  unfold satAdd1
  omega

theorem loadFromFlash_both (fl : Flash) (qa qb : Nat) (ea fa eb fb : List Nat)
    (hA : readSlot fl.slotA = some (qa, ea, fa))
    (hB : readSlot fl.slotB = some (qb, eb, fb)) :
    loadFromFlash fl =
      if qb > qa then { fobs := fb, etag := eb, dirty := false, sequence := qb }
      else { fobs := fa, etag := ea, dirty := false, sequence := qa } := by
  unfold loadFromFlash
  rw [hA, hB]

theorem save_ab_alternation_left (s : Storage) (fl : Flash)
    (a b : Nat) (ea fa eb fb : List Nat) (etag2 fobs2 : List Nat)
    (hA : readSlot fl.slotA = some (a, ea, fa))
    (hB : readSlot fl.slotB = some (b, eb, fb))
    (hseq : s.sequence = max a b)
    (hcap : max a b + 2 < 2 ^ 32)
    (he1 : s.etag.length ≤ 64) (he1b : ∀ x ∈ s.etag, x < 256)
    (hf1 : s.fobs.length ≤ MAX_FOBS) (hf1w : ∀ f ∈ s.fobs, f < 2 ^ 32)
    (he2 : etag2.length ≤ 64) (he2b : ∀ x ∈ etag2, x < 256)
    (hf2 : fobs2.length ≤ MAX_FOBS) (hf2w : ∀ f ∈ fobs2, f < 2 ^ 32)
    (hltab : a < b) :
    SaveAlternationSpec s fl a b etag2 fobs2 := by
  have hsA := readSlot_some_seq _ _ _ _ hA
  have hsB := readSlot_some_seq _ _ _ _ hB
  intro s1 fl1 ok1 h1
  have hmax : max a b = b := Nat.max_eq_right (le_of_lt hltab)
  rw [hmax] at hcap ⊢
  have hsat1 : satAdd1 s.sequence = b + 1 := by
    rw [hseq, hmax]
    exact satAdd1_eq b (lt_trans (Nat.lt_succ_self _) hcap)
  have heval1 := saveToFlash_ok_eval s fl a b hsA hsB
  rw [saveTargetA_lower_a a b (Nat.lt_asymm hltab), if_pos rfl, hsat1, h1] at heval1
  obtain ⟨rfl, rfl, rfl⟩ :
      s1 = { s with sequence := b + 1 } ∧
      fl1 = { fl with slotA := (flashWrite fl.slotA
        (saveBuf (b + 1) s.etag s.fobs)) } ∧ ok1 = true := by
    rw [Prod.mk.injEq, Prod.mk.injEq] at heval1
    exact ⟨heval1.1, heval1.2.1, heval1.2.2⟩
  have hW1 := readSlot_flashWrite fl.slotA (b + 1) s.etag s.fobs
    (lt_trans (Nat.lt_succ_self _) hcap) he1 he1b hf1 hf1w
  refine ⟨rfl, fun _ => ⟨hW1.1, rfl⟩,
    fun h => absurd hltab (Nat.lt_asymm h), ?_⟩
  intro s2 fl2 ok2 h2
  have hsat2 : satAdd1 (b + 1) = b + 2 := satAdd1_eq (b + 1) hcap
  have heval2 := saveToFlash_ok_eval
    { fobs := fobs2, etag := etag2, dirty := s.dirty, sequence := b + 1 }
    { fl with slotA := (flashWrite fl.slotA (saveBuf (b + 1) s.etag s.fobs)) }
    (b + 1) b hW1.2 hsB
  rw [saveTargetA_lower_b (b + 1) b (Nat.lt_succ_self b),
    if_neg (by decide : ¬ (false = true))] at heval2
  dsimp only at heval2
  rw [hsat2, h2] at heval2
  obtain ⟨rfl, rfl, rfl⟩ :
      s2 = { fobs := fobs2, etag := etag2, dirty := s.dirty, sequence := b + 2 } ∧
      fl2 = { slotA := (flashWrite fl.slotA (saveBuf (b + 1) s.etag s.fobs)),
              slotB := (flashWrite fl.slotB (saveBuf (b + 2) etag2 fobs2)) } ∧
      ok2 = true := by
    rw [Prod.mk.injEq, Prod.mk.injEq] at heval2
    exact ⟨heval2.1, heval2.2.1, heval2.2.2⟩
  have hW2 := readSlot_flashWrite fl.slotB (b + 2) etag2 fobs2 hcap
    he2 he2b hf2 hf2w
  refine ⟨rfl, fun _ => ⟨hW2.1, rfl⟩,
    fun h => absurd hltab (Nat.lt_asymm h), ?_⟩
  rw [loadFromFlash_both
      { slotA := (flashWrite fl.slotA (saveBuf (b + 1) s.etag s.fobs)),
        slotB := (flashWrite fl.slotB (saveBuf (b + 2) etag2 fobs2)) }
      (b + 1) (b + 2) s.etag s.fobs etag2 fobs2 hW1.1 hW2.1,
    if_pos (Nat.lt_succ_self (b + 1))]

theorem save_ab_alternation_right (s : Storage) (fl : Flash)
    (a b : Nat) (ea fa eb fb : List Nat) (etag2 fobs2 : List Nat)
    (hA : readSlot fl.slotA = some (a, ea, fa))
    (hB : readSlot fl.slotB = some (b, eb, fb))
    (hseq : s.sequence = max a b)
    (hcap : max a b + 2 < 2 ^ 32)
    (he1 : s.etag.length ≤ 64) (he1b : ∀ x ∈ s.etag, x < 256)
    (hf1 : s.fobs.length ≤ MAX_FOBS) (hf1w : ∀ f ∈ s.fobs, f < 2 ^ 32)
    (he2 : etag2.length ≤ 64) (he2b : ∀ x ∈ etag2, x < 256)
    (hf2 : fobs2.length ≤ MAX_FOBS) (hf2w : ∀ f ∈ fobs2, f < 2 ^ 32)
    (hltba : b < a) :
    SaveAlternationSpec s fl a b etag2 fobs2 := by
  have hsA := readSlot_some_seq _ _ _ _ hA
  have hsB := readSlot_some_seq _ _ _ _ hB
  intro s1 fl1 ok1 h1
  have hmax : max a b = a := Nat.max_eq_left (le_of_lt hltba)
  rw [hmax] at hcap ⊢
  have hsat1 : satAdd1 s.sequence = a + 1 := by
    rw [hseq, hmax]
    exact satAdd1_eq a (lt_trans (Nat.lt_succ_self _) hcap)
  have heval1 := saveToFlash_ok_eval s fl a b hsA hsB
  rw [saveTargetA_lower_b a b hltba,
    if_neg (by decide : ¬ (false = true)), hsat1, h1] at heval1
  obtain ⟨rfl, rfl, rfl⟩ :
      s1 = { s with sequence := a + 1 } ∧
      fl1 = { fl with slotB := (flashWrite fl.slotB
        (saveBuf (a + 1) s.etag s.fobs)) } ∧ ok1 = true := by
    rw [Prod.mk.injEq, Prod.mk.injEq] at heval1
    exact ⟨heval1.1, heval1.2.1, heval1.2.2⟩
  have hW1 := readSlot_flashWrite fl.slotB (a + 1) s.etag s.fobs
    (lt_trans (Nat.lt_succ_self _) hcap) he1 he1b hf1 hf1w
  refine ⟨rfl, fun h => absurd hltba (Nat.lt_asymm h),
    fun _ => ⟨hW1.1, rfl⟩, ?_⟩
  intro s2 fl2 ok2 h2
  have hsat2 : satAdd1 (a + 1) = a + 2 := satAdd1_eq (a + 1) hcap
  have heval2 := saveToFlash_ok_eval
    { fobs := fobs2, etag := etag2, dirty := s.dirty, sequence := a + 1 }
    { fl with slotB := (flashWrite fl.slotB (saveBuf (a + 1) s.etag s.fobs)) }
    a (a + 1) hsA hW1.2
  rw [saveTargetA_lower_a a (a + 1) (Nat.lt_asymm (Nat.lt_succ_self a)),
    if_pos rfl] at heval2
  dsimp only at heval2
  rw [hsat2, h2] at heval2
  obtain ⟨rfl, rfl, rfl⟩ :
      s2 = { fobs := fobs2, etag := etag2, dirty := s.dirty, sequence := a + 2 } ∧
      fl2 = { slotA := (flashWrite fl.slotA (saveBuf (a + 2) etag2 fobs2)),
              slotB := (flashWrite fl.slotB (saveBuf (a + 1) s.etag s.fobs)) } ∧
      ok2 = true := by
    rw [Prod.mk.injEq, Prod.mk.injEq] at heval2
    exact ⟨heval2.1, heval2.2.1, heval2.2.2⟩
  have hW2 := readSlot_flashWrite fl.slotA (a + 2) etag2 fobs2 hcap
    he2 he2b hf2 hf2w
  refine ⟨rfl, fun h => absurd hltba (Nat.lt_asymm h),
    fun _ => ⟨hW2.1, rfl⟩, ?_⟩
  rw [loadFromFlash_both
      { slotA := (flashWrite fl.slotA (saveBuf (a + 2) etag2 fobs2)),
        slotB := (flashWrite fl.slotB (saveBuf (a + 1) s.etag s.fobs)) }
      (a + 2) (a + 1) etag2 fobs2 s.etag s.fobs hW2.1 hW1.1,
    if_neg (Nat.lt_asymm (Nat.lt_succ_self (a + 1)))]

/-- C2 (amended): starting from two valid slots with distinct sequence
numbers whose maximum the in-memory counter holds (the state `load`
establishes), and with that maximum at least two below the u32
saturation bound `2^32 - 1` (as forced by the counterexample), each
successful save writes to the flash slot whose current stored sequence
number is the lower of the two, and the record it writes carries
sequence number equal to the previous maximum plus one; consequently
two consecutive successful save calls write to different slots, and a
load performed after them returns the set and etag of the most recent
save (load choosing the valid slot with the higher sequence number). -/
theorem save_ab_alternation (s : Storage) (fl : Flash)
    (a b : Nat) (ea fa eb fb : List Nat) (etag2 fobs2 : List Nat)
    (hA : readSlot fl.slotA = some (a, ea, fa))
    (hB : readSlot fl.slotB = some (b, eb, fb))
    (hab : a ≠ b)
    (hseq : s.sequence = max a b)
    (hcap : max a b + 2 < 2 ^ 32)
    (he1 : s.etag.length ≤ 64) (he1b : ∀ x ∈ s.etag, x < 256)
    (hf1 : s.fobs.length ≤ MAX_FOBS) (hf1w : ∀ f ∈ s.fobs, f < 2 ^ 32)
    (he2 : etag2.length ≤ 64) (he2b : ∀ x ∈ etag2, x < 256)
    (hf2 : fobs2.length ≤ MAX_FOBS) (hf2w : ∀ f ∈ fobs2, f < 2 ^ 32) :
    SaveAlternationSpec s fl a b etag2 fobs2 := by
  rcases Nat.lt_or_ge a b with hlt | hge
  · exact save_ab_alternation_left s fl a b ea fa eb fb etag2 fobs2 hA hB hseq
      hcap he1 he1b hf1 hf1w he2 he2b hf2 hf2w hlt
  · exact save_ab_alternation_right s fl a b ea fa eb fb etag2 fobs2 hA hB hseq
      hcap he1 he1b hf1 hf1w he2 he2b hf2 hf2w (Nat.lt_of_le_of_ne hge (Ne.symm hab))

/-- C2 counterexample (sequence at the saturation bound): with both
slots valid at sequences `2^32 - 1` and `2^32 - 2` and the in-memory
counter at their maximum, a successful save targets the lower slot (B)
but the record it writes carries sequence `2^32 - 1` — the saturating
increment stays at the bound — and not "previous maximum plus one". -/
theorem save_seq_saturation :
    readSlot (saveBuf (2 ^ 32 - 1) [] []) = some (2 ^ 32 - 1, [], []) ∧
    readSlot (saveBuf (2 ^ 32 - 2) [] []) = some (2 ^ 32 - 2, [], []) ∧
    readSlotSequence ((saveToFlash
        { fobs := [], etag := [], dirty := false, sequence := 2 ^ 32 - 1 }
        { slotA := saveBuf (2 ^ 32 - 1) [] [], slotB := saveBuf (2 ^ 32 - 2) [] [] }
        { requestOk := true, safeOk := true, writeOk := true }).2.1.slotB) =
      some (2 ^ 32 - 1) ∧
    ¬ (2 : Nat) ^ 32 - 1 = max (2 ^ 32 - 1) (2 ^ 32 - 2) + 1 := by
  exact ⟨by decide, by decide, by decide, by decide⟩

/-- C2 witness: the alternation theorem applied to a concrete state —
slot A at sequence 1, slot B at sequence 2, memory at 2 — saving
`([3], "a")` and then `([7], "b")`. -/
theorem save_ab_alternation_witness :
    SaveAlternationSpec { fobs := [3], etag := [97], dirty := false, sequence := 2 }
      { slotA := saveBuf 1 [] [], slotB := saveBuf 2 [] [] } 1 2 [98] [7] :=
  save_ab_alternation
    { fobs := [3], etag := [97], dirty := false, sequence := 2 }
    { slotA := saveBuf 1 [] [], slotB := saveBuf 2 [] [] }
    1 2 [] [] [] [] [98] [7]
    (by decide) (by decide) (by decide) (by decide) (by decide)
    (by decide) (by decide) (by decide) (by decide)
    (by decide) (by decide) (by decide) (by decide)
